import Mathlib

/-!
# gop `ensure`: directory prober, recursive copier and vendoring loop

A shallow embedding of `cmd/ensure.go` (functions `IsDir`, `Copy`, `IsExist`,
`statDir`, `StatDir`, `CopyDir` and the vendoring loop of `runEnsure`) over an
explicit model of the file system, followed by the properties of these
functions.

Modelling conventions.

* Go strings are byte sequences and are modelled as `List Char` (`Str`).
  `path.Join` and `filepath.Join` (Unix) are modelled with `path.Clean`.
* The file system is a finite tree (`Node`). A directory holds its entries in
  the order in which `Readdir` reports them; a new entry comes last. Paths are
  resolved lexically from the root (the working directory is the root);
  symbolic links are never traversed by the model: `os.Stat`, `os.Open`,
  `os.Create` on a path whose last component is a symbolic link report
  `ErrNotExist`, as for a dangling link, and a path that runs through a link
  does not resolve, while `os.Lstat`, `os.Readlink`, `os.Symlink` and the
  entries of `Readdir` see the link itself. There are no hard links, and an
  open file is known by its resolved path.
* Permissions are not enforced, so the only failures of the primitives are the
  structural ones (missing path, wrong kind of node, existing path). A regular
  file carries its permission bits and its modification time; a written file
  is stamped with the clock of the file system.
* A Go function returning `error` that may change the file system returns the
  new file system together with `Option Err` (`none` is Go's `nil`).
* The recursion of `statDir` is bounded by the height of the tree, which it
  cannot exceed; `StatDir` is shown never to reach the bound.
* Functions called by `runEnsure` that are defined outside `ensure.go` are
  parameters of the loop (`Env`), except `isDirExist`, which is modelled.
-/

namespace Gop

/-! ## Strings and paths -/

/-- Go `string`, as a list of characters. -/
abbrev Str := List Char

/-- `strings.HasPrefix(s, pre)`. -/
def hasPrefix (s pre : Str) : Bool := pre.isPrefixOf s

/-- `strings.HasSuffix(s, suf)`. -/
def hasSuffix (s suf : Str) : Bool := suf.isSuffixOf s

/-- `strings.Contains(s, sub)`. -/
def strContains : Str → Str → Bool
  | [], sub => sub.isEmpty
  | c :: cs, sub => sub.isPrefixOf (c :: cs) || strContains cs sub

/-- Put a character in front of the first piece of a split path. -/
def consHead (c : Char) : List Str → List Str
  | [] => [[c]]
  | w :: ws => (c :: w) :: ws

/-- Split a path at every `'/'` (like `strings.Split(p, "/")`): the result is
never empty and its pieces contain no `'/'`. -/
def splitSlash : Str → List Str
  | [] => [[]]
  | c :: cs => if c = '/' then [] :: splitSlash cs else consHead c (splitSlash cs)

/-- Join path elements with `'/'`. -/
def joinSlash : List Str → Str
  | [] => []
  | [w] => w
  | w :: ws => w ++ '/' :: joinSlash ws

/-- One step of `path.Clean` over the elements of a path: empty and `.`
elements are dropped, `..` removes the preceding element when there is one that
is not itself `..`, is dropped at the root of a rooted path and kept otherwise. -/
def cleanStep (rooted : Bool) (acc : List Str) (c : Str) : List Str :=
  if c = [] ∨ c = ['.'] then acc
  else if c = ['.', '.'] then
    match acc.getLast? with
    | none => if rooted then acc else acc ++ [c]
    | some l => if l = ['.', '.'] then acc ++ [c] else acc.dropLast
  else acc ++ [c]

/-- Go's `path.Clean`. -/
def pathClean (p : Str) : Str :=
  let rooted := p.head? = some '/'
  let body := joinSlash ((splitSlash p).foldl (cleanStep rooted) [])
  if rooted then '/' :: body else if body = [] then ['.'] else body

/-- Go's `path.Join` for two elements (`filepath.Join` on Unix): leading empty
elements are ignored, the others are joined with `'/'` and the result is
cleaned; the result is empty when both elements are. -/
def pathJoin (a b : Str) : Str :=
  if a = [] then (if b = [] then [] else pathClean b)
  else pathClean (a ++ '/' :: b)

/-- Go's `filepath.Join` for three elements, the second of which is not
empty. -/
def pathJoin3 (a b c : Str) : Str :=
  if a = [] then pathJoin b c else pathClean (a ++ '/' :: (b ++ '/' :: c))

/-- One step of path resolution by the operating system, from the root. -/
def resolveStep (acc : List Str) (c : Str) : List Str :=
  if c = [] ∨ c = ['.'] then acc
  else if c = ['.', '.'] then acc.dropLast
  else acc ++ [c]

/-- The components of the node a path names, from the root. -/
def resolve (p : Str) : List Str := (splitSlash p).foldl resolveStep []

/-! ## File system model -/

/-- A node of the file system tree. A regular file has contents, a modification
time and permission bits; a symbolic link has a target string; a directory has
named entries in `Readdir` order. -/
inductive Node where
  | file (data : List Nat) (modTime : Nat) (mode : Nat)
  | symlink (target : Str)
  | dir (entries : List (Str × Node))

instance : Inhabited Node := ⟨.dir []⟩

/-- Whether the node is a directory. -/
def Node.isDir : Node → Bool
  | .dir _ => true
  | _ => false

/-- Whether the node is a symbolic link. -/
def Node.isSymlink : Node → Bool
  | .symlink _ => true
  | _ => false

/-- The entry named `c` of a directory listing. -/
def lookupE (c : Str) : List (Str × Node) → Option Node
  | [] => none
  | (k, v) :: rest => if k = c then some v else lookupE c rest

/-- Replace the node of the entry named `c`. -/
def setE (c : Str) (v : Node) : List (Str × Node) → List (Str × Node)
  | [] => []
  | (k, w) :: rest => if k = c then (k, v) :: rest else (k, w) :: setE c v rest

/-- The node reached from `n` along the components `cs`, through directories
only. -/
def Node.get : Node → List Str → Option Node
  | n, [] => some n
  | .dir es, c :: cs =>
    match lookupE c es with
    | some ch => ch.get cs
    | none => none
  | .file _ _ _, _ :: _ => none
  | .symlink _, _ :: _ => none

/-- Put `new` at the components `cs` below `n`: the node there is replaced, or
a new last entry is added to the parent directory; fails when the parent is
not an existing directory. -/
def Node.putAt : Node → List Str → Node → Option Node
  | _, [], new => some new
  | .dir es, c :: cs, new =>
    match lookupE c es with
    | some ch =>
      match ch.putAt cs new with
      | some ch1 => some (.dir (setE c ch1 es))
      | none => none
    | none => if cs = [] then some (.dir (es ++ [(c, new)])) else none
  | .file _ _ _, _ :: _, _ => none
  | .symlink _, _ :: _, _ => none

mutual
/-- Number of directory levels below a node. -/
def Node.height : Node → Nat
  | .file _ _ _ => 0
  | .symlink _ => 0
  | .dir es => heightE es + 1
/-- Largest height among the entries of a directory. -/
def heightE : List (Str × Node) → Nat
  | [] => 0
  | (_, n) :: rest => max n.height (heightE rest)
end

/-- A name a directory entry can have: not empty, not `.` or `..`, without
`'/'`. -/
def goodName (c : Str) : Bool :=
  !(c = [] ∨ c = ['.'] ∨ c = ['.', '.']) && !c.contains '/'

mutual
/-- Well-formed tree: entry names are valid and distinct within a directory. -/
def Node.wf : Node → Bool
  | .file _ _ _ => true
  | .symlink _ => true
  | .dir es => wfE es
/-- Well-formed directory listing. -/
def wfE : List (Str × Node) → Bool
  | [] => true
  | (c, n) :: rest => goodName c && (lookupE c rest).isNone && n.wf && wfE rest
end

/-- The state of the file system: the tree and the clock used to stamp
written files. -/
structure FS where
  root : Node
  now : Nat

/-- Errors. `notExist`, `exist`, `notDir`, `isDir`, `invalid` stand for the
system errors ENOENT (also used when a path runs through a non-directory),
EEXIST, ENOTDIR, EISDIR, EINVAL; `msg` is an error made by `errors.New`;
`exec` is a failure of the external fetch command; `depth` reports that the
recursion bound of the model was reached. -/
inductive Err where
  | notExist
  | exist
  | notDir
  | isDir
  | invalid
  | depth
  | exec
  | msg (text : Str)
deriving DecidableEq

/-- `os.IsExist(err)`. -/
def Err.isExist : Err → Bool
  | .exist => true
  | _ => false

/-- `os.FileInfo`: the fields the program reads. -/
structure FileInfo where
  name : Str
  isDir : Bool
  isSymlink : Bool
  modTime : Nat
  mode : Nat

/-- The `FileInfo` of a node (as `Lstat` and `Readdir` report it). -/
def Node.info (name : Str) : Node → FileInfo
  | .file _ mt md => ⟨name, false, false, mt, md⟩
  | .symlink _ => ⟨name, false, true, 0, 0⟩
  | .dir _ => ⟨name, true, false, 0, 0⟩

/-- Last component of a path, for `FileInfo.Name`. -/
def baseName (p : Str) : Str := ((resolve p).getLast?).getD ['/']

/-- `os.Lstat`. -/
def osLstat (fs : FS) (p : Str) : Except Err FileInfo :=
  match fs.root.get (resolve p) with
  | some n => .ok (n.info (baseName p))
  | none => .error .notExist

/-- `os.Stat`. -/
def osStat (fs : FS) (p : Str) : Except Err FileInfo :=
  match fs.root.get (resolve p) with
  | some (.symlink _) => .error .notExist
  | some n => .ok (n.info (baseName p))
  | none => .error .notExist

/-- `os.Open(p)` followed by `Readdir(0)`: the entries of a directory. -/
def osReaddir (fs : FS) (p : Str) : Except Err (List FileInfo) :=
  match fs.root.get (resolve p) with
  | some (.dir es) => .ok (es.map (fun e => e.2.info e.1))
  | some (.file _ _ _) => .error .notDir
  | some (.symlink _) => .error .notExist
  | none => .error .notExist

/-- `os.Open` for reading: the handle is the resolved path. -/
def osOpen (fs : FS) (p : Str) : Except Err (List Str) :=
  match fs.root.get (resolve p) with
  | some (.symlink _) => .error .notExist
  | some _ => .ok (resolve p)
  | none => .error .notExist

/-- `os.Readlink`. -/
def osReadlink (fs : FS) (p : Str) : Except Err Str :=
  match fs.root.get (resolve p) with
  | some (.symlink t) => .ok t
  | some _ => .error .invalid
  | none => .error .notExist

/-- Put a node at resolved components, reporting ENOENT when the parent
directory is missing. -/
def FS.put (fs : FS) (w : List Str) (new : Node) : FS × Option Err :=
  match fs.root.putAt w new with
  | some r => ({ fs with root := r }, none)
  | none => (fs, some .notExist)

/-- `os.Symlink(target, p)`. -/
def osSymlink (fs : FS) (target p : Str) : FS × Option Err :=
  match fs.root.get (resolve p) with
  | some _ => (fs, some .exist)
  | none => fs.put (resolve p) (.symlink target)

/-- `os.Create(p)`: create the file, or truncate an existing one. The handle
is the resolved path. -/
def osCreate (fs : FS) (p : Str) : FS × Except Err (List Str) :=
  match fs.root.get (resolve p) with
  | some (.dir _) => (fs, .error .isDir)
  | some (.symlink _) => (fs, .error .notExist)
  | some (.file _ _ md) =>
    match fs.put (resolve p) (.file [] fs.now md) with
    | (fs1, none) => (fs1, .ok (resolve p))
    | (fs1, some e) => (fs1, .error e)
  | none =>
    match fs.put (resolve p) (.file [] fs.now 420) with
    | (fs1, none) => (fs1, .ok (resolve p))
    | (fs1, some e) => (fs1, .error e)

/-- `io.Copy(dw, sr)` between two open files: the bytes of `sr` are read and
written to the (just truncated) file `dw`. -/
def ioCopy (fs : FS) (dw sr : List Str) : FS × Option Err :=
  match fs.root.get sr with
  | some (.file data _ _) =>
    match fs.root.get dw with
    | some (.file _ _ md) => fs.put dw (.file data fs.now md)
    | _ => (fs, some .invalid)
  | some (.dir _) => (fs, some .isDir)
  | _ => (fs, some .invalid)

/-- `os.Chtimes(p, atime, mtime)`; only the modification time is kept. -/
def osChtimes (fs : FS) (p : Str) (_atime mtime : Nat) : FS × Option Err :=
  match fs.root.get (resolve p) with
  | some (.file d _ md) => fs.put (resolve p) (.file d mtime md)
  | some (.dir _) => (fs, none)
  | _ => (fs, some .notExist)

/-- `os.Chmod(p, mode)`. -/
def osChmod (fs : FS) (p : Str) (mode : Nat) : FS × Option Err :=
  match fs.root.get (resolve p) with
  | some (.file d mt _) => fs.put (resolve p) (.file d mt mode)
  | some (.dir _) => (fs, none)
  | _ => (fs, some .notExist)

/-- `os.Mkdir` at resolved components. -/
def mkdirAt (fs : FS) (w : List Str) : FS × Option Err :=
  match fs.root.get w with
  | some _ => (fs, some .exist)
  | none => fs.put w (.dir [])

/-- `os.MkdirAll` on the components of the path, last component first: if the
path is a directory there is nothing to do, if it is a file the call fails;
otherwise the parent is made first and then the directory itself (when `Mkdir`
fails, `Lstat` is consulted once more). -/
def mkdirAllRev (fs : FS) : List Str → FS × Option Err
  | [] =>
    match fs.root with
    | .dir _ => (fs, none)
    | _ => (fs, some .notDir)
  | c :: parent =>
    match fs.root.get (c :: parent).reverse with
    | some (.dir _) => (fs, none)
    | some (.file _ _ _) => (fs, some .notDir)
    | _ =>
      match mkdirAllRev fs parent with
      | (fs1, some e) => (fs1, some e)
      | (fs1, none) =>
        match mkdirAt fs1 (c :: parent).reverse with
        | (fs2, none) => (fs2, none)
        | (fs2, some e) =>
          match fs2.root.get (c :: parent).reverse with
          | some (.dir _) => (fs2, none)
          | _ => (fs2, some e)

/-- `os.MkdirAll(p, os.ModePerm)`. -/
def osMkdirAll (fs : FS) (p : Str) : FS × Option Err :=
  mkdirAllRev fs (resolve p).reverse

/-! ## The program -/

/-- `IsDir` (ensure.go, line 132): true if the path is a directory, false when
it is a file or does not exist. -/
def IsDir (fs : FS) (dir : Str) : Bool :=
  match osStat fs dir with
  | .error _ => false
  | .ok f => f.isDir

/-- `Copy` (ensure.go, line 141): copy a file from `src` to `dest`; a symbolic
link is recreated, a regular file has its bytes copied and then its
modification time and mode set back. -/
def Copy (fs : FS) (src dest : Str) : FS × Option Err :=
  match osLstat fs src with
  | .error e => (fs, some e)
  | .ok si =>
    if si.isSymlink then
      match osReadlink fs src with
      | .error e => (fs, some e)
      | .ok target => osSymlink fs target dest
    else
      match osOpen fs src with
      | .error e => (fs, some e)
      | .ok sr =>
        match osCreate fs dest with
        | (fs1, .error e) => (fs1, some e)
        | (fs1, .ok dw) =>
          match ioCopy fs1 dw sr with
          | (fs2, some e) => (fs2, some e)
          | (fs2, none) =>
            match osChtimes fs2 dest si.modTime si.modTime with
            | (fs3, some e) => (fs3, some e)
            | (fs3, none) => osChmod fs3 dest si.mode

/-- `IsExist` (ensure.go, line 184). -/
def IsExist (fs : FS) (path : Str) : Bool :=
  match osStat fs path with
  | .ok _ => true
  | .error e => e.isExist

/-- The name skipped by `statDir`. -/
def dsStore : Str := ".DS_Store".toList

/-- The loop of `statDir` over the entries `fis` of the directory, with the
accumulated `statList`; `recurse curPath relPath` is the recursive call. -/
def statLoop (recurse : Str → Str → Except Err (List Str)) (dirPath recPath : Str)
    (includeDir isDirOnly : Bool) : List FileInfo → List Str → Except Err (List Str)
  | [], statList => .ok statList
  | fi :: fis, statList =>
    if strContains fi.name dsStore then
      statLoop recurse dirPath recPath includeDir isDirOnly fis statList
    else
      let relPath := pathJoin recPath fi.name
      let curPath := pathJoin dirPath fi.name
      if fi.isDir then
        let statList1 := if includeDir then statList ++ [relPath ++ ['/']] else statList
        match recurse curPath relPath with
        | .error e => .error e
        | .ok s => statLoop recurse dirPath recPath includeDir isDirOnly fis (statList1 ++ s)
      else if !isDirOnly then
        statLoop recurse dirPath recPath includeDir isDirOnly fis (statList ++ [relPath])
      else
        statLoop recurse dirPath recPath includeDir isDirOnly fis statList

/-- `statDir` (ensure.go, line 189). The first argument bounds the depth of
the recursion, which descends one directory level per call. -/
def statDir (fs : FS) : Nat → Str → Str → Bool → Bool → Except Err (List Str)
  | 0, _, _, _, _ => .error .depth
  | fuel + 1, dirPath, recPath, includeDir, isDirOnly =>
    match osReaddir fs dirPath with
    | .error e => .error e
    | .ok fis =>
      statLoop (fun curPath relPath => statDir fs fuel curPath relPath includeDir isDirOnly)
        dirPath recPath includeDir isDirOnly fis []

/-- Text of the error of `StatDir`. -/
def notDirText : Str := "not a directory or does not exist: ".toList

/-- `StatDir` (ensure.go, line 232); `includeDir` is the variadic argument.
The recursion bound handed to `statDir` is the height of the tree, which no
directory nesting exceeds. -/
def StatDir (fs : FS) (rootPath : Str) (includeDir : List Bool) : Except Err (List Str) :=
  if !IsDir fs rootPath then .error (.msg (notDirText ++ rootPath))
  else
    let isIncludeDir := match includeDir with
      | b :: _ => b
      | [] => false
    statDir fs (fs.root.height + 1) rootPath [] isIncludeDir false

/-- The test `filter != nil && filter(info)` of `CopyDir`. -/
def excluded (filter : Option (Str → Bool)) (info : Str) : Bool :=
  match filter with
  | some f => f info
  | none => false

/-- The loop of `CopyDir` over the listing `infos`. -/
def copyLoop (srcPath destPath : Str) (filter : Option (Str → Bool)) :
    FS → List Str → FS × Option Err
  | fs, [] => (fs, none)
  | fs, info :: infos =>
    if excluded filter info then copyLoop srcPath destPath filter fs infos
    else
      let curPath := pathJoin destPath info
      match (if hasSuffix info ['/'] then osMkdirAll fs curPath
             else Copy fs (pathJoin srcPath info) curPath) with
      | (fs1, some e) => (fs1, some e)
      | (fs1, none) => copyLoop srcPath destPath filter fs1 infos

/-- Text of the error of `CopyDir` (spelled as in the source). -/
def existsText : Str := "file or directory alreay exists: ".toList

/-- `CopyDir` (ensure.go, line 250); `filters` is the variadic argument. -/
def CopyDir (fs : FS) (srcPath destPath : Str) (filters : List (Str → Bool)) :
    FS × Option Err :=
  if IsExist fs destPath then (fs, some (.msg (existsText ++ destPath)))
  else
    match osMkdirAll fs destPath with
    | (fs1, some e) => (fs1, some e)
    | (fs1, none) =>
      match StatDir fs1 srcPath [true] with
      | .error e => (fs1, some e)
      | .ok infos => copyLoop srcPath destPath filters.head? fs1 infos

/-! ## The vendoring loop of `runEnsure` -/

/-- What the loop of `runEnsure` needs from the rest of the program and from
its surroundings. `IsGoRepoPath`, `util.NormalizeName` and the `go get` command
run by `NewCommand("get")` are not part of `ensure.go`; they are parameters.
`vendorDir` and `globalGoPath` are the values computed before the loop, `dry`
and `get` are `cmd.IsSet("dry")` and `cmd.IsSet("get")`. -/
structure Env where
  isGoRepoPath : Str → Bool
  normalizeName : Str → Str
  goGet : FS → Str → FS × Option Err
  vendorDir : Str
  globalGoPath : Str
  dry : Bool
  get : Bool

/-- The actions of the loop that are visible from outside: a call of
`isDirExist`, the line printed by `fmt.Println("copying", imp)`, a run of the
fetch command, a call of `CopyDir`. -/
inductive Event where
  | probe (path : Str)
  | print (imp : Str)
  | fetch (imp : Str)
  | copy (src dest : Str)
deriving DecidableEq

/-- Modelled from the spec: `isDirExist` is called by `runEnsure` but defined
outside `ensure.go`. The spec's Directory Prober answers "does the path exist
and is it a directory", and the synchronizer treats an import as satisfied when
its destination exists; the model reports `true` exactly for an existing
directory and never fails. -/
def isDirExist (fs : FS) (p : Str) : Except Err Bool := .ok (IsDir fs p)

/-- Prefix a result of the loop with the events that came before it. -/
def emit (evs : List Event) (r : FS × List Event × Option Err) :
    FS × List Event × Option Err :=
  (r.1, evs ++ r.2.1, r.2.2)

/-- The filter `runEnsure` hands to `CopyDir`. -/
def gitFilter (path : Str) : Bool := hasPrefix path ".git".toList

/-- The loop `for _, imp := range imports` of `runEnsure` (ensure.go, lines
77 to 127): the final file system, the actions performed and the returned
error. -/
def ensureLoop (env : Env) : FS → List Str → FS × List Event × Option Err
  | fs, [] => (fs, [], none)
  | fs, imp :: imports =>
    if env.isGoRepoPath imp then ensureLoop env fs imports
    else if imp = "C".toList ∨ hasPrefix imp "../".toList ∨ hasPrefix imp "./".toList then
      ensureLoop env fs imports
    else
      let imp := env.normalizeName imp
      let p := pathJoin env.vendorDir imp
      match isDirExist fs p with
      | .error e => (fs, [.probe p], some e)
      | .ok true => emit [.probe p] (ensureLoop env fs imports)
      | .ok false =>
        let srcDir := pathJoin3 env.globalGoPath "src".toList imp
        if env.dry then emit [.probe p, .print imp] (ensureLoop env fs imports)
        else
          match isDirExist fs srcDir with
          | .error e => (fs, [.probe p, .print imp, .probe srcDir], some e)
          | .ok exist =>
            match (if !exist && env.get then
                     (match env.goGet fs imp with
                      | (fs1, err) => (fs1, [Event.fetch imp], err))
                   else (fs, [], none)) with
            | (fs1, evs, some e) => (fs1, [.probe p, .print imp, .probe srcDir] ++ evs, some e)
            | (fs1, evs, none) =>
              match CopyDir fs1 srcDir p [gitFilter] with
              | (fs2, some e) =>
                (fs2, [.probe p, .print imp, .probe srcDir] ++ evs ++ [.copy srcDir p], some e)
              | (fs2, none) =>
                emit ([.probe p, .print imp, .probe srcDir] ++ evs ++ [.copy srcDir p])
                  (ensureLoop env fs2 imports)

/-- The imports the loop of `runEnsure` passes over: those for which
`IsGoRepoPath` holds, `"C"`, and those beginning with `"../"` or `"./"`. -/
def skipped (env : Env) (imp : Str) : Bool :=
  env.isGoRepoPath imp ||
    decide (imp = "C".toList ∨ hasPrefix imp "../".toList ∨ hasPrefix imp "./".toList)

/-- The destination `p` of an import in the vendor directory. -/
def vendorPath (env : Env) (imp : Str) : Str :=
  pathJoin env.vendorDir (env.normalizeName imp)

/-- Whether an action of the loop is a call of `isDirExist`. -/
def Event.isProbe : Event → Bool
  | .probe _ => true
  | _ => false

/-! ## Example file systems -/

/-- A regular file. -/
def exFile : Node := .file [112, 107, 103] 7 420

/-- The source tree `pkg/{a.go, .git/config, sub/b.go}`. -/
def exPkgNode : Node :=
  .dir [("a.go".toList, exFile), (".git".toList, .dir [("config".toList, exFile)]),
    ("sub".toList, .dir [("b.go".toList, exFile)])]

/-- A file system that holds the source tree at `/pkg`. -/
def exPkg : FS := ⟨.dir [("pkg".toList, exPkgNode)], 100⟩

/-- The file system `exPkg` after `/pkg` has been copied to `/dest` without
the paths that begin with `.git`. -/
def exPkgCopied : FS :=
  ⟨.dir [("pkg".toList, exPkgNode),
    ("dest".toList, .dir [("a.go".toList, exFile), ("sub".toList, .dir [("b.go".toList, exFile)])])],
    100⟩

/-- A source tree with version-control metadata in a subdirectory,
`pkg/{a.go, sub/.git/config}`. -/
def exNested : FS :=
  ⟨.dir [("pkg".toList, .dir [("a.go".toList, exFile),
    ("sub".toList, .dir [(".git".toList, .dir [("config".toList, exFile)])])])], 100⟩

/-- A source tree with symbolic links: to a file, to a directory, dangling. -/
def exLinks : FS :=
  ⟨.dir [("pkg".toList, .dir [("a.go".toList, exFile), ("sub".toList, .dir []),
    ("toFile".toList, .symlink "a.go".toList), ("toDir".toList, .symlink "sub".toList),
    ("gone".toList, .symlink "/nowhere".toList)])], 100⟩

/-- A work space: the package `x` and the package `.x` in the global cache
`/gopath/src`, and an empty vendor directory `/proj/src/vendor`. -/
def exWork : FS :=
  ⟨.dir [("gopath".toList, .dir [("src".toList,
      .dir [("x".toList, .dir [("a.go".toList, exFile)]),
        (".x".toList, .dir [("a.go".toList, exFile)])])]),
    ("proj".toList, .dir [("src".toList, .dir [("vendor".toList, .dir [])])])], 100⟩

/-- An environment of the loop of `runEnsure`: `fmt` is the only standard
package, names are normalized to themselves, the fetch command does nothing. -/
def exEnv (dry : Bool) : Env :=
  { isGoRepoPath := fun imp => decide (imp = "fmt".toList)
    normalizeName := fun imp => imp
    goGet := fun fs _ => (fs, none)
    vendorDir := "/proj/src/vendor".toList
    globalGoPath := "/gopath".toList
    dry := dry
    get := true }

/-! ## Auxiliary notions for the proofs -/

/-- The node without what lies below it: a directory is seen as an empty
directory. -/
def Node.shallow : Node → Node
  | .dir _ => .dir []
  | n => n

/-- What there is at the components `q`: nothing, a file with its contents and
metadata, a symbolic link with its target, or a directory. -/
def Node.kindAt (r : Node) (q : List Str) : Option Node := (r.get q).map Node.shallow

/-- A path element that resolution and cleaning keep as it is. -/
def Plain (c : Str) : Prop := c ≠ [] ∧ c ≠ ['.'] ∧ c ≠ ['.', '.']

/-- The shape of the element stack of `path.Clean`: some `..` (none when the
path is rooted) followed by plain elements. -/
def CleanInv (rooted : Bool) (a : List Str) (g : List Str) : Prop :=
  ∃ k, a = List.replicate k ['.', '.'] ++ g ∧ (rooted = true → k = 0) ∧ ∀ x ∈ g, Plain x

/-- The entry string of the relative components `r`: the components joined
with `'/'`, followed by `'/'` for a directory. -/
def relEntry (r : List Str) (isDir : Bool) : Str :=
  joinSlash r ++ (if isDir then ['/'] else [])

mutual
/-- The listing of the node at the relative components `pre`, in depth-first
preorder: the entry of the node itself, then the entries below it. -/
def listNode (includeDir isDirOnly : Bool) (pre : List Str) : Node → List Str
  | .dir es =>
    (if includeDir then [relEntry pre true] else []) ++ listE includeDir isDirOnly pre es
  | .file _ _ _ => if isDirOnly then [] else [relEntry pre false]
  | .symlink _ => if isDirOnly then [] else [relEntry pre false]
/-- The listing of the entries of the directory at the relative components
`pre`, in order, skipping the names that contain `.DS_Store`. -/
def listE (includeDir isDirOnly : Bool) (pre : List Str) : List (Str × Node) → List Str
  | [] => []
  | (c, n) :: rest =>
    (if strContains c dsStore then [] else listNode includeDir isDirOnly (pre ++ [c]) n)
      ++ listE includeDir isDirOnly pre rest
end

/-- The string `e` is the entry of a node below `root`: there are relative
components `r`, not empty and without a name containing `.DS_Store`, that lead
from `root` to a node `n`, and `e` is the entry string of `pre ++ r`, marked as
a directory when `n` is one; directories are listed when `a` holds, other nodes
when `b` does not. -/
def Listed (a b : Bool) (root : Node) (pre : List Str) (e : Str) : Prop :=
  ∃ r n, r ≠ [] ∧ root.get r = some n ∧ (∀ c ∈ r, strContains c dsStore = false) ∧
    (n.isDir = true → a = true) ∧ (n.isDir = false → b = false) ∧
    e = relEntry (pre ++ r) n.isDir

/-- The string `e` is the entry string of a node of `fs1` below the components
`S`. -/
def EntryOf (fs1 : FS) (S : List Str) (e : Str) : Prop :=
  ∃ r n, r ≠ [] ∧ fs1.root.get (S ++ r) = some n ∧ e = relEntry r n.isDir

/-- Every directory of `fs` is still a directory in `fs2`. -/
def DirKept (fs fs2 : FS) : Prop :=
  ∀ q es, fs.root.get q = some (.dir es) → ∃ es2, fs2.root.get q = some (.dir es2)

/-- The files and links of `fs1` are still there, unchanged, in `fs`. -/
def OldKept (fs1 fs : FS) : Prop :=
  ∀ q n, fs1.root.get q = some n → n.isDir = false → fs.root.get q = some n

/-- The entry at the relative components `r` has been copied from below `S` in
`fs1` to below `D` in `fs`: there is a node at `D ++ r`, a directory when `b`
holds, and otherwise the very node that `fs1` has at `S ++ r`. -/
def DoneAt (fs1 fs : FS) (S D r : List Str) (b : Bool) : Prop :=
  ∃ n, fs.root.get (D ++ r) = some n ∧ n.isDir = b ∧
    (b = false → fs1.root.get (S ++ r) = some n)

/-- Every node of `fs` was already in `fs1`, with the same kind, or lies below
`D` at relative components whose entry string is allowed. -/
def Sound (fs1 fs : FS) (D : List Str) (allowed : Str → Prop) : Prop :=
  ∀ q k, fs.root.kindAt q = some k →
    fs1.root.kindAt q = some k ∨ ∃ r, r ≠ [] ∧ q = D ++ r ∧ allowed (relEntry r k.isDir)

/-- The file system `fs1` is `fs` with the leaf `new` (a file, a link or an
empty directory) at the components `w`, and nothing else changed: the clock is
the same, well-formedness is kept, every other place holds what it held, and
no directory has been replaced. -/
def Upd (fs fs1 : FS) (w : List Str) (new : Node) : Prop :=
  fs1.now = fs.now ∧ (fs.root.wf = true → fs1.root.wf = true) ∧
    (∀ q, fs1.root.kindAt q = if q = w then some new else fs.root.kindAt q) ∧
    (∀ m, fs.root.get w = some m → m.isDir = false)

/-- The file system `fs1` is `fs` with every place along the components `w`
made a directory where there was nothing: nodes that are not above `w` are
untouched, every place above or at `w` is a directory, and what was there was
one already. -/
def MkUpd (fs fs1 : FS) (w : List Str) : Prop :=
  fs1.now = fs.now ∧ (fs.root.wf = true → fs1.root.wf = true) ∧
    (∀ q, ¬ q <+: w → fs1.root.get q = fs.root.get q) ∧
    (∀ q, q <+: w → ∃ es, fs1.root.get q = some (.dir es)) ∧
    (fs.root.get w = none → fs1.root.get w = some (.dir [])) ∧
    (∀ q, q <+: w → ∀ n, fs.root.get q = some n → n.isDir = true)


/-! ## Lemmas on paths -/

theorem splitSlash_ne_nil (p : Str) : splitSlash p ≠ [] := by
  induction p with
  | nil => simp [splitSlash]
  | cons c cs ih =>
    unfold splitSlash
    split
    · simp
    · cases splitSlash cs <;> simp [consHead]

theorem splitSlash_append_slash (a b : Str) :
    splitSlash (a ++ '/' :: b) = splitSlash a ++ splitSlash b := by
  induction a with
  | nil => simp [splitSlash]
  | cons c cs ih =>
    by_cases hc : c = '/'
    · simp [splitSlash, hc, ih]
    · rw [List.cons_append, splitSlash, splitSlash, if_neg hc, if_neg hc, ih]
      cases h : splitSlash cs with
      | nil => exact absurd h (splitSlash_ne_nil cs)
      | cons w ws => simp [consHead]

theorem splitSlash_of_no_slash (n : Str) (h : '/' ∉ n) : splitSlash n = [n] := by
  induction n with
  | nil => simp [splitSlash]
  | cons c cs ih =>
    have hc : c ≠ '/' := fun e => h (by simp [e])
    have hcs : '/' ∉ cs := fun e => h (by simp [e])
    rw [splitSlash]; simp [hc, ih hcs, consHead]

theorem mem_splitSlash_no_slash (p : Str) : ∀ w ∈ splitSlash p, '/' ∉ w := by
  induction p with
  | nil => simp [splitSlash]
  | cons c cs ih =>
    by_cases hc : c = '/'
    · intro w hw
      simp [splitSlash, hc] at hw
      rcases hw with rfl | hw
      · simp
      · exact ih w hw
    · intro w hw
      rw [splitSlash] at hw
      simp only [hc, if_false] at hw
      cases h : splitSlash cs with
      | nil => exact absurd h (splitSlash_ne_nil cs)
      | cons v vs =>
        rw [h] at hw ih
        simp [consHead] at hw
        rcases hw with rfl | hw
        · have := ih v (by simp)
          simp only [List.mem_cons, not_or]
          exact ⟨fun e => hc e.symm, this⟩
        · exact ih w (by simp [hw])

theorem joinSlash_cons_cons (w v : Str) (ws : List Str) :
    joinSlash (w :: v :: ws) = w ++ '/' :: joinSlash (v :: ws) := by
  simp [joinSlash]

theorem splitSlash_joinSlash (ws : List Str) (hne : ws ≠ []) (h : ∀ w ∈ ws, '/' ∉ w) :
    splitSlash (joinSlash ws) = ws := by
  induction ws with
  | nil => exact absurd rfl hne
  | cons w rest ih =>
    cases rest with
    | nil => simpa [joinSlash] using splitSlash_of_no_slash w (h w (by simp))
    | cons v vs =>
      rw [joinSlash_cons_cons, splitSlash_append_slash,
        splitSlash_of_no_slash w (h w (by simp)), ih (by simp) (fun x hx => h x (by simp [hx]))]
      rfl

theorem joinSlash_append_singleton (ws : List Str) (hne : ws ≠ []) (n : Str) :
    joinSlash (ws ++ [n]) = joinSlash ws ++ '/' :: n := by
  induction ws with
  | nil => exact absurd rfl hne
  | cons w rest ih =>
    cases rest with
    | nil => simp [joinSlash]
    | cons v vs =>
      have := ih (by simp)
      simp only [List.cons_append] at this ⊢
      rw [joinSlash_cons_cons, joinSlash_cons_cons, this]
      simp

theorem goodName_iff (c : Str) : goodName c = true ↔ Plain c ∧ '/' ∉ c := by
  simp [goodName, Plain, and_assoc]

theorem resolveStep_plain (acc : List Str) (c : Str) (h : Plain c) :
    resolveStep acc c = acc ++ [c] := by
  simp [resolveStep, h.1, h.2.1, h.2.2]

theorem foldl_resolveStep_plain (xs : List Str) (h : ∀ x ∈ xs, Plain x) (acc : List Str) :
    xs.foldl resolveStep acc = acc ++ xs := by
  induction xs generalizing acc with
  | nil => simp
  | cons x xs ih =>
    rw [List.foldl_cons, resolveStep_plain acc x (h x (by simp)),
      ih (fun y hy => h y (by simp [hy]))]
    simp

theorem foldl_resolveStep_dots (k : Nat) :
    (List.replicate k ['.', '.']).foldl resolveStep [] = [] := by
  induction k with
  | zero => rfl
  | succ k ih =>
    rw [List.replicate_succ, List.foldl_cons]
    simpa [resolveStep] using ih

theorem cleanStep_inv (rooted : Bool) (a g : List Str) (c : Str) (h : CleanInv rooted a g) :
    CleanInv rooted (cleanStep rooted a c) (resolveStep g c) := by
  obtain ⟨k, rfl, hk, hg⟩ := h
  by_cases h1 : c = [] ∨ c = ['.']
  · simp only [cleanStep, resolveStep, h1, if_true]
    exact ⟨k, rfl, hk, hg⟩
  · by_cases h2 : c = ['.', '.']
    · subst h2
      simp only [cleanStep, resolveStep, h1, if_false, if_true]
      rcases List.eq_nil_or_concat g with rfl | ⟨g1, l, hgl⟩
      · cases k with
        | zero =>
          simp only [List.replicate_zero, List.append_nil, List.getLast?_nil, List.dropLast_nil]
          cases rooted with
          | true => exact ⟨0, by simp, by simp, by simp⟩
          | false => exact ⟨1, by simp, by simp, by simp⟩
        | succ k =>
          have hr : rooted ≠ true := fun e => by simpa using hk e
          have hl : (List.replicate (k + 1) ['.', '.'] ++ []).getLast? = some ['.', '.'] := by
            simp [List.getLast?_replicate]
          rw [hl]
          simp only [if_true, List.dropLast_nil]
          refine ⟨k + 2, ?_, fun e => absurd e hr, by simp⟩
          simp [List.replicate_succ']
      · rw [List.concat_eq_append] at hgl
        subst hgl
        have hlp : Plain l := hg l (by simp)
        have hl : (List.replicate k ['.', '.'] ++ (g1 ++ [l])).getLast? = some l := by
          rw [← List.append_assoc, List.getLast?_append]; simp
        rw [hl]
        simp only [hlp.2.2, if_false]
        refine ⟨k, ?_, hk, ?_⟩
        · rw [← List.append_assoc, List.dropLast_concat, List.dropLast_concat]
        · intro x hx
          rw [List.dropLast_concat] at hx
          exact hg x (by simp [hx])
    · have hp : Plain c := ⟨fun e => h1 (Or.inl e), fun e => h1 (Or.inr e), h2⟩
      simp only [cleanStep, resolveStep, h1, h2, if_false]
      refine ⟨k, by simp, hk, ?_⟩
      intro x hx
      rcases List.mem_append.1 hx with hx | hx
      · exact hg x hx
      · simp at hx; subst hx; exact hp

theorem foldl_cleanStep_inv (rooted : Bool) (xs : List Str) (a g : List Str)
    (h : CleanInv rooted a g) :
    CleanInv rooted (xs.foldl (cleanStep rooted) a) (xs.foldl resolveStep g) := by
  induction xs generalizing a g with
  | nil => exact h
  | cons x xs ih => exact ih _ _ (cleanStep_inv rooted a g x h)

theorem cleanStep_no_slash (rooted : Bool) (a : List Str) (c : Str)
    (ha : ∀ x ∈ a, '/' ∉ x) (hc : '/' ∉ c) : ∀ x ∈ cleanStep rooted a c, '/' ∉ x := by
  intro x hx
  unfold cleanStep at hx
  split at hx
  · exact ha x hx
  · split at hx
    · split at hx
      · split at hx
        · exact ha x hx
        · rcases List.mem_append.1 hx with hx | hx
          · exact ha x hx
          · simp at hx; subst hx; exact hc
      · split at hx
        · rcases List.mem_append.1 hx with hx | hx
          · exact ha x hx
          · simp at hx; subst hx; exact hc
        · exact ha x (List.mem_of_mem_dropLast hx)
    · rcases List.mem_append.1 hx with hx | hx
      · exact ha x hx
      · simp at hx; subst hx; exact hc

theorem foldl_cleanStep_no_slash (rooted : Bool) (xs : List Str) (a : List Str)
    (ha : ∀ x ∈ a, '/' ∉ x) (hx : ∀ x ∈ xs, '/' ∉ x) :
    ∀ x ∈ xs.foldl (cleanStep rooted) a, '/' ∉ x := by
  induction xs generalizing a with
  | nil => exact ha
  | cons y ys ih =>
    exact ih _ (cleanStep_no_slash rooted a y ha (hx y (by simp)))
      (fun z hz => hx z (by simp [hz]))

theorem resolve_of_cleanInv (a g : List Str) (rooted : Bool) (h : CleanInv rooted a g) :
    a.foldl resolveStep [] = g := by
  obtain ⟨k, rfl, _, hg⟩ := h
  rw [List.foldl_append, foldl_resolveStep_dots, foldl_resolveStep_plain g hg]
  simp

theorem joinSlash_eq_nil (ws : List Str) (h : ∀ w ∈ ws, w ≠ []) (he : joinSlash ws = []) :
    ws = [] := by
  cases ws with
  | nil => rfl
  | cons w rest =>
    cases rest with
    | nil => simp [joinSlash] at he; exact absurd he (h w (by simp))
    | cons v vs => simp [joinSlash] at he

/-- Cleaning a path does not change the node it names. -/
theorem resolve_pathClean (p : Str) : resolve (pathClean p) = resolve p := by
  have hinv := foldl_cleanStep_inv (decide (p.head? = some '/')) (splitSlash p) [] []
    ⟨0, by simp, by simp, by simp⟩
  have hns := foldl_cleanStep_no_slash (decide (p.head? = some '/')) (splitSlash p) []
    (by simp) (mem_splitSlash_no_slash p)
  have hres := resolve_of_cleanInv _ _ _ hinv
  have hnonempty : ∀ w ∈ (splitSlash p).foldl (cleanStep (decide (p.head? = some '/'))) [],
      w ≠ [] := by
    obtain ⟨k, hk, _, hg⟩ := hinv
    intro w hw
    rw [hk] at hw
    rcases List.mem_append.1 hw with hw | hw
    · rw [List.eq_of_mem_replicate hw]; simp
    · exact (hg w hw).1
  have key : ∀ comps : List Str, (∀ w ∈ comps, w ≠ []) → (∀ w ∈ comps, '/' ∉ w) →
      (splitSlash (joinSlash comps)).foldl resolveStep [] = comps.foldl resolveStep [] := by
    intro comps h1 h2
    by_cases hc : comps = []
    · subst hc; simp [joinSlash, splitSlash, resolveStep]
    · rw [splitSlash_joinSlash comps hc h2]
  unfold resolve at hres ⊢
  unfold pathClean
  simp only
  by_cases hr : p.head? = some '/'
  · simp only [hr, if_true, decide_True]
    simp only [hr, decide_True] at hres hnonempty hns
    rw [show ('/' :: joinSlash (List.foldl (cleanStep true) [] (splitSlash p)))
        = [] ++ '/' :: joinSlash (List.foldl (cleanStep true) [] (splitSlash p)) from rfl,
      splitSlash_append_slash, List.foldl_append]
    have : (splitSlash []).foldl resolveStep [] = [] := by simp [splitSlash, resolveStep]
    rw [this, key _ hnonempty hns, hres]
  · simp only [hr, if_false, decide_False]
    simp only [hr, decide_False] at hres hnonempty hns
    split
    · rename_i hb
      have := joinSlash_eq_nil _ hnonempty hb
      rw [this] at hres
      rw [← hres]
      simp [splitSlash, resolveStep, consHead]
    · rw [key _ hnonempty hns, hres]

/-- The node named by a joined path: the second element is resolved from the
node named by the first. -/
theorem resolve_pathJoin (a b : Str) :
    resolve (pathJoin a b) = (splitSlash b).foldl resolveStep (resolve a) := by
  unfold pathJoin
  by_cases ha : a = []
  · subst ha
    by_cases hb : b = []
    · subst hb; simp [resolve, splitSlash, resolveStep]
    · simp only [if_true, hb, if_false]
      rw [resolve_pathClean]
      simp [resolve, splitSlash, resolveStep]
  · simp only [ha, if_false]
    rw [resolve_pathClean, resolve, splitSlash_append_slash, List.foldl_append]
    rfl



/-! ## Lemmas on the file system tree -/

theorem lookupE_setE_same (c : Str) (v : Node) (es : List (Str × Node)) (ch : Node)
    (h : lookupE c es = some ch) : lookupE c (setE c v es) = some v := by
  induction es with
  | nil => simp [lookupE] at h
  | cons e rest ih =>
    obtain ⟨k, w⟩ := e
    by_cases hk : k = c
    · simp [setE, lookupE, hk]
    · simp only [lookupE, hk, if_false] at h
      simp [setE, lookupE, hk, ih h]

theorem lookupE_setE_other (c d : Str) (v : Node) (es : List (Str × Node)) (h : d ≠ c) :
    lookupE d (setE c v es) = lookupE d es := by
  induction es with
  | nil => simp [setE]
  | cons e rest ih =>
    obtain ⟨k, w⟩ := e
    by_cases hk : k = c
    · have hkd : k ≠ d := fun e => h (e.symm.trans hk)
      simp only [setE, hk, if_true, lookupE]
      rw [← hk]
      simp [hkd]
    · by_cases hd : k = d
      · subst hd
        simp [setE, lookupE, hk]
      · simp only [setE, hk, if_false, lookupE, hd, ih]

theorem lookupE_append_new (c : Str) (v : Node) (es : List (Str × Node))
    (h : lookupE c es = none) : lookupE c (es ++ [(c, v)]) = some v := by
  induction es with
  | nil => simp [lookupE]
  | cons e rest ih =>
    obtain ⟨k, w⟩ := e
    by_cases hk : k = c
    · simp [lookupE, hk] at h
    · simp only [lookupE, hk, if_false] at h
      simp [lookupE, hk, ih h]

theorem lookupE_append_other (c d : Str) (v : Node) (es : List (Str × Node)) (h : d ≠ c) :
    lookupE d (es ++ [(c, v)]) = lookupE d es := by
  induction es with
  | nil => simp [lookupE, Ne.symm h]
  | cons e rest ih =>
    obtain ⟨k, w⟩ := e
    by_cases hk : k = d
    · simp [lookupE, hk]
    · simp [lookupE, hk, ih]

theorem lookupE_none_all (es : List (Str × Node)) (h : ∀ c, lookupE c es = none) : es = [] := by
  cases es with
  | nil => rfl
  | cons e rest =>
    obtain ⟨k, w⟩ := e
    have := h k
    simp [lookupE] at this

theorem get_nil (n : Node) : n.get [] = some n := by
  cases n <;> rfl

theorem get_dir_cons (es : List (Str × Node)) (c : Str) (cs : List Str) :
    (Node.dir es).get (c :: cs) = (lookupE c es).bind (fun ch => ch.get cs) := by
  rw [Node.get]
  cases lookupE c es <;> rfl

theorem get_cons_of_not_dir (n : Node) (c : Str) (cs : List Str) (h : n.isDir = false) :
    n.get (c :: cs) = none := by
  cases n with
  | file _ _ _ => rfl
  | symlink _ => rfl
  | dir _ => simp [Node.isDir] at h

theorem get_dir_nil_cons (c : Str) (cs : List Str) : (Node.dir []).get (c :: cs) = none := by
  simp [get_dir_cons, lookupE]

theorem get_shallow_cons (n : Node) (h : n.shallow = n) (c : Str) (cs : List Str) :
    n.get (c :: cs) = none := by
  cases n with
  | file _ _ _ => rfl
  | symlink _ => rfl
  | dir es =>
    simp only [Node.shallow, Node.dir.injEq] at h
    subst h
    exact get_dir_nil_cons c cs

theorem get_append (n : Node) (a b : List Str) :
    n.get (a ++ b) = (n.get a).bind (fun m => m.get b) := by
  induction a generalizing n with
  | nil => simp [get_nil]
  | cons c cs ih =>
    cases n with
    | file _ _ _ => simp [Node.get]
    | symlink _ => simp [Node.get]
    | dir es =>
      simp only [List.cons_append, get_dir_cons]
      cases lookupE c es with
      | none => rfl
      | some ch => simp [ih]

theorem get_isPrefix_of_some (n : Node) (a b : List Str) (m : Node)
    (h : n.get (a ++ b) = some m) : ∃ m1, n.get a = some m1 ∧ m1.get b = some m := by
  rw [get_append] at h
  cases h1 : n.get a with
  | none => simp [h1] at h
  | some m1 => exact ⟨m1, rfl, by simpa [h1] using h⟩

theorem get_proper_ancestor_isDir (n : Node) (a : List Str) (c : Str) (b : List Str) (m : Node)
    (h : n.get (a ++ c :: b) = some m) : ∃ es, n.get a = some (.dir es) := by
  obtain ⟨m1, h1, h2⟩ := get_isPrefix_of_some n a (c :: b) m h
  cases m1 with
  | file _ _ _ => simp [Node.get] at h2
  | symlink _ => simp [Node.get] at h2
  | dir es => exact ⟨es, h1⟩

theorem putAt_nil (r new : Node) : r.putAt [] new = some new := by
  cases r <;> rfl

theorem putAt_dir_cons_some (es : List (Str × Node)) (c : Str) (cs : List Str) (new ch : Node)
    (hl : lookupE c es = some ch) :
    (Node.dir es).putAt (c :: cs) new =
      (ch.putAt cs new).map (fun ch1 => Node.dir (setE c ch1 es)) := by
  rw [Node.putAt]
  simp only [hl]
  cases ch.putAt cs new <;> rfl

theorem putAt_dir_cons_none (es : List (Str × Node)) (c : Str) (cs : List Str) (new : Node)
    (hl : lookupE c es = none) :
    (Node.dir es).putAt (c :: cs) new =
      if cs = [] then some (.dir (es ++ [(c, new)])) else none := by
  rw [Node.putAt]
  simp only [hl]

/-- After a successful put, the node at the place and below it is the new one. -/
theorem get_putAt_extend (r : Node) (w : List Str) (new r1 : Node) (t : List Str)
    (h : r.putAt w new = some r1) : r1.get (w ++ t) = new.get t := by
  induction w generalizing r r1 with
  | nil => rw [putAt_nil] at h; cases h; rfl
  | cons c cs ih =>
    cases r with
    | file _ _ _ => simp [Node.putAt] at h
    | symlink _ => simp [Node.putAt] at h
    | dir es =>
      cases hl : lookupE c es with
      | none =>
        rw [putAt_dir_cons_none _ _ _ _ hl] at h
        by_cases hcs : cs = []
        · subst hcs
          simp at h
          subst h
          simp [get_dir_cons, lookupE_append_new c new es hl]
        · simp [hcs] at h
      | some ch =>
        rw [putAt_dir_cons_some _ _ _ _ _ hl] at h
        cases hp : ch.putAt cs new with
        | none => simp [hp] at h
        | some ch1 =>
          simp [hp] at h
          subst h
          simp [get_dir_cons, lookupE_setE_same c ch1 es ch hl, ih ch ch1 hp]

/-- The effect of a put on what there is at every place, when no directory is
replaced and the new node is a file, a link or an empty directory. -/
theorem kindAt_putAt (r : Node) (w : List Str) (new r1 : Node)
    (h : r.putAt w new = some r1) (hold : ∀ m, r.get w = some m → m.isDir = false)
    (hnew : new.shallow = new) (q : List Str) :
    r1.kindAt q = if q = w then some new else r.kindAt q := by
  induction w generalizing r r1 q with
  | nil =>
    rw [putAt_nil] at h; cases h
    have hr : r.isDir = false := hold r (get_nil r)
    cases q with
    | nil => simp [Node.kindAt, get_nil, hnew]
    | cons c qs =>
      simp [Node.kindAt, get_shallow_cons new hnew, get_cons_of_not_dir r c qs hr]
  | cons c cs ih =>
    cases r with
    | file _ _ _ => simp [Node.putAt] at h
    | symlink _ => simp [Node.putAt] at h
    | dir es =>
      cases q with
      | nil =>
        cases hl : lookupE c es with
        | none =>
          rw [putAt_dir_cons_none _ _ _ _ hl] at h
          by_cases hcs : cs = []
          · simp [hcs] at h; subst h; simp [Node.kindAt, get_nil, Node.shallow]
          · simp [hcs] at h
        | some ch =>
          rw [putAt_dir_cons_some _ _ _ _ _ hl] at h
          cases hp : ch.putAt cs new with
          | none => simp [hp] at h
          | some ch1 => simp [hp] at h; subst h; simp [Node.kindAt, get_nil, Node.shallow]
      | cons d qs =>
        by_cases hd : d = c
        · subst hd
          cases hl : lookupE d es with
          | none =>
            rw [putAt_dir_cons_none _ _ _ _ hl] at h
            by_cases hcs : cs = []
            · subst hcs
              simp at h; subst h
              cases qs with
              | nil =>
                simp [Node.kindAt, get_dir_cons, lookupE_append_new d new es hl, get_nil, hnew]
              | cons e qs =>
                simp [Node.kindAt, get_dir_cons, lookupE_append_new d new es hl, hl,
                  get_shallow_cons new hnew]
            · simp [hcs] at h
          | some ch =>
            rw [putAt_dir_cons_some _ _ _ _ _ hl] at h
            cases hp : ch.putAt cs new with
            | none => simp [hp] at h
            | some ch1 =>
              simp [hp] at h; subst h
              have hold1 : ∀ m, ch.get cs = some m → m.isDir = false := by
                intro m hm
                apply hold m
                simp [get_dir_cons, hl, hm]
              have := ih ch ch1 hp hold1 qs
              simp only [Node.kindAt] at this
              simpa [Node.kindAt, get_dir_cons, lookupE_setE_same d ch1 es ch hl, hl] using this
        · have hq : ¬ (d :: qs = c :: cs) := by simp [hd]
          simp only [hq, if_false]
          cases hl : lookupE c es with
          | none =>
            rw [putAt_dir_cons_none _ _ _ _ hl] at h
            by_cases hcs : cs = []
            · simp [hcs] at h; subst h
              simp [Node.kindAt, get_dir_cons, lookupE_append_other c d new es hd]
            · simp [hcs] at h
          | some ch =>
            rw [putAt_dir_cons_some _ _ _ _ _ hl] at h
            cases hp : ch.putAt cs new with
            | none => simp [hp] at h
            | some ch1 =>
              simp [hp] at h; subst h
              simp [Node.kindAt, get_dir_cons, lookupE_setE_other c d ch1 es hd]

/-- A put at a new place leaves every node that is not above the place as it
was. -/
theorem get_putAt_new (r : Node) (w : List Str) (new r1 : Node)
    (h : r.putAt w new = some r1) (hold : r.get w = none) (hnew : new.shallow = new)
    (q : List Str) (hq : ¬ q <+: w) : r1.get q = r.get q := by
  induction w generalizing r r1 q with
  | nil => simp [get_nil] at hold
  | cons c cs ih =>
    cases r with
    | file _ _ _ => simp [Node.putAt] at h
    | symlink _ => simp [Node.putAt] at h
    | dir es =>
      cases q with
      | nil => exact absurd List.nil_prefix hq
      | cons d qs =>
        by_cases hd : d = c
        · subst hd
          have hqs : ¬ qs <+: cs := fun e => hq ((List.prefix_cons_inj d).2 e)
          cases hl : lookupE d es with
          | none =>
            rw [putAt_dir_cons_none _ _ _ _ hl] at h
            by_cases hcs : cs = []
            · subst hcs
              simp at h; subst h
              cases qs with
              | nil => exact absurd List.nil_prefix hqs
              | cons e qs =>
                simp [get_dir_cons, lookupE_append_new d new es hl, hl,
                  get_shallow_cons new hnew]
            · simp [hcs] at h
          | some ch =>
            rw [putAt_dir_cons_some _ _ _ _ _ hl] at h
            cases hp : ch.putAt cs new with
            | none => simp [hp] at h
            | some ch1 =>
              simp [hp] at h; subst h
              have hold1 : ch.get cs = none := by
                simpa [get_dir_cons, hl] using hold
              simp [get_dir_cons, lookupE_setE_same d ch1 es ch hl, hl,
                ih ch ch1 hp hold1 qs hqs]
        · cases hl : lookupE c es with
          | none =>
            rw [putAt_dir_cons_none _ _ _ _ hl] at h
            by_cases hcs : cs = []
            · simp [hcs] at h; subst h
              simp [get_dir_cons, lookupE_append_other c d new es hd]
            · simp [hcs] at h
          | some ch =>
            rw [putAt_dir_cons_some _ _ _ _ _ hl] at h
            cases hp : ch.putAt cs new with
            | none => simp [hp] at h
            | some ch1 =>
              simp [hp] at h; subst h
              simp [get_dir_cons, lookupE_setE_other c d ch1 es hd]

theorem wf_dir (es : List (Str × Node)) : (Node.dir es).wf = wfE es := by
  rw [Node.wf]

theorem wfE_cons (c : Str) (n : Node) (rest : List (Str × Node)) :
    wfE ((c, n) :: rest) = true ↔
      goodName c = true ∧ lookupE c rest = none ∧ n.wf = true ∧ wfE rest = true := by
  rw [wfE]
  simp [and_assoc]

theorem wfE_append_new (es : List (Str × Node)) (c : Str) (new : Node)
    (hes : wfE es = true) (hc : goodName c = true) (hl : lookupE c es = none)
    (hn : new.wf = true) : wfE (es ++ [(c, new)]) = true := by
  induction es with
  | nil =>
    simp only [List.nil_append]
    rw [wfE_cons]
    exact ⟨hc, rfl, hn, by simp [wfE]⟩
  | cons e rest ih =>
    obtain ⟨k, v⟩ := e
    rw [wfE_cons] at hes
    obtain ⟨h1, h2, h3, h4⟩ := hes
    have hk : k ≠ c := by
      intro e; subst e; simp [lookupE] at hl
    have hl1 : lookupE c rest = none := by simpa [lookupE, hk] using hl
    simp only [List.cons_append]
    rw [wfE_cons]
    refine ⟨h1, ?_, h3, ih h4 hl1⟩
    rw [lookupE_append_other c k new rest hk]
    exact h2

theorem wfE_setE (es : List (Str × Node)) (c : Str) (v : Node)
    (hes : wfE es = true) (hv : v.wf = true) : wfE (setE c v es) = true := by
  induction es with
  | nil => simp [setE, wfE]
  | cons e rest ih =>
    obtain ⟨k, w⟩ := e
    rw [wfE_cons] at hes
    obtain ⟨h1, h2, h3, h4⟩ := hes
    by_cases hk : k = c
    · simp only [setE, hk, if_true]
      rw [wfE_cons]
      exact ⟨hk ▸ h1, hk ▸ h2, hv, h4⟩
    · simp only [setE, hk, if_false]
      rw [wfE_cons]
      refine ⟨h1, ?_, h3, ih h4⟩
      rw [lookupE_setE_other c k v rest hk]
      exact h2

theorem wf_lookupE (es : List (Str × Node)) (c : Str) (ch : Node) (hes : wfE es = true)
    (h : lookupE c es = some ch) : ch.wf = true ∧ goodName c = true := by
  induction es with
  | nil => simp [lookupE] at h
  | cons e rest ih =>
    obtain ⟨k, w⟩ := e
    rw [wfE_cons] at hes
    obtain ⟨h1, h2, h3, h4⟩ := hes
    by_cases hk : k = c
    · simp [lookupE, hk] at h
      subst h; subst hk
      exact ⟨h3, h1⟩
    · simp only [lookupE, hk, if_false] at h
      exact ih h4 h

theorem wf_get (r : Node) (q : List Str) (n : Node) (hr : r.wf = true)
    (h : r.get q = some n) : n.wf = true ∧ ∀ c ∈ q, goodName c = true := by
  induction q generalizing r with
  | nil => rw [get_nil] at h; cases h; exact ⟨hr, by simp⟩
  | cons c cs ih =>
    cases r with
    | file _ _ _ => simp [Node.get] at h
    | symlink _ => simp [Node.get] at h
    | dir es =>
      rw [get_dir_cons] at h
      cases hl : lookupE c es with
      | none => simp [hl] at h
      | some ch =>
        simp only [hl, Option.some_bind] at h
        rw [wf_dir] at hr
        obtain ⟨h1, h2⟩ := wf_lookupE es c ch hr hl
        obtain ⟨h3, h4⟩ := ih ch h1 h
        refine ⟨h3, ?_⟩
        intro d hd
        rcases List.mem_cons.1 hd with rfl | hd
        · exact h2
        · exact h4 d hd

theorem wf_putAt (r : Node) (w : List Str) (new r1 : Node) (h : r.putAt w new = some r1)
    (hr : r.wf = true) (hn : new.wf = true) (hw : ∀ c ∈ w, goodName c = true) :
    r1.wf = true := by
  induction w generalizing r r1 with
  | nil => rw [putAt_nil] at h; cases h; exact hn
  | cons c cs ih =>
    cases r with
    | file _ _ _ => simp [Node.putAt] at h
    | symlink _ => simp [Node.putAt] at h
    | dir es =>
      rw [wf_dir] at hr
      cases hl : lookupE c es with
      | none =>
        rw [putAt_dir_cons_none _ _ _ _ hl] at h
        by_cases hcs : cs = []
        · simp [hcs] at h; subst h
          rw [wf_dir]
          exact wfE_append_new es c new hr (hw c (by simp)) hl hn
        · simp [hcs] at h
      | some ch =>
        rw [putAt_dir_cons_some _ _ _ _ _ hl] at h
        cases hp : ch.putAt cs new with
        | none => simp [hp] at h
        | some ch1 =>
          simp [hp] at h; subst h
          rw [wf_dir]
          exact wfE_setE es c ch1 hr
            (ih ch ch1 hp (wf_lookupE es c ch hr hl).1 (fun d hd => hw d (by simp [hd])))



/-! ## Lemmas on the primitives -/

theorem resolveStep_good (acc : List Str) (c : Str) (ha : ∀ x ∈ acc, goodName x = true)
    (hc : '/' ∉ c) : ∀ x ∈ resolveStep acc c, goodName x = true := by
  intro x hx
  unfold resolveStep at hx
  split at hx
  · exact ha x hx
  · rename_i h1
    split at hx
    · exact ha x (List.mem_of_mem_dropLast hx)
    · rename_i h2
      rcases List.mem_append.1 hx with hx | hx
      · exact ha x hx
      · simp at hx; subst hx
        rw [goodName_iff]
        exact ⟨⟨fun e => h1 (Or.inl e), fun e => h1 (Or.inr e), h2⟩, hc⟩

theorem foldl_resolveStep_good (xs : List Str) (acc : List Str)
    (ha : ∀ x ∈ acc, goodName x = true) (hx : ∀ x ∈ xs, '/' ∉ x) :
    ∀ x ∈ xs.foldl resolveStep acc, goodName x = true := by
  induction xs generalizing acc with
  | nil => exact ha
  | cons y ys ih =>
    exact ih _ (resolveStep_good acc y ha (hx y (by simp))) (fun z hz => hx z (by simp [hz]))

/-- The components of a resolved path are valid entry names. -/
theorem resolve_good (p : Str) : ∀ c ∈ resolve p, goodName c = true :=
  foldl_resolveStep_good _ _ (by simp) (mem_splitSlash_no_slash p)

theorem kindAt_eq_some_iff (r : Node) (q : List Str) (n : Node) (hn : n.isDir = false) :
    r.kindAt q = some n ↔ r.get q = some n := by
  unfold Node.kindAt
  cases h : r.get q with
  | none => simp
  | some m =>
    cases m with
    | file _ _ _ => simp [Node.shallow]
    | symlink _ => simp [Node.shallow]
    | dir es =>
      simp only [Option.map_some', Node.shallow, Option.some.injEq]
      constructor
      · intro e; subst e; simp [Node.isDir] at hn
      · intro e; subst e; simp [Node.isDir] at hn

theorem kindAt_eq_none_iff (r : Node) (q : List Str) : r.kindAt q = none ↔ r.get q = none := by
  simp [Node.kindAt]

theorem kindAt_dir_iff (r : Node) (q : List Str) :
    r.kindAt q = some (.dir []) ↔ ∃ es, r.get q = some (.dir es) := by
  unfold Node.kindAt
  cases h : r.get q with
  | none => simp
  | some m => cases m <;> simp [Node.shallow]

theorem put_ok (fs fs1 : FS) (w : List Str) (new : Node) (h : fs.put w new = (fs1, none)) :
    fs.root.putAt w new = some fs1.root ∧ fs1.now = fs.now := by
  unfold FS.put at h
  cases hp : fs.root.putAt w new with
  | none => simp [hp] at h
  | some r =>
    simp only [hp, Prod.mk.injEq, and_true] at h
    subst h
    exact ⟨rfl, rfl⟩

theorem put_Upd (fs fs1 : FS) (w : List Str) (new : Node) (h : fs.put w new = (fs1, none))
    (hold : ∀ m, fs.root.get w = some m → m.isDir = false) (hnew : new.shallow = new)
    (hwf : new.wf = true) (hw : ∀ c ∈ w, goodName c = true) : Upd fs fs1 w new := by
  obtain ⟨h1, h2⟩ := put_ok fs fs1 w new h
  exact ⟨h2, fun hr => wf_putAt _ _ _ _ h1 hr hwf hw, kindAt_putAt _ _ _ _ h1 hold hnew, hold⟩

theorem Upd_trans (fs fs1 fs2 : FS) (w : List Str) (a b : Node) (h1 : Upd fs fs1 w a)
    (h2 : Upd fs1 fs2 w b) : Upd fs fs2 w b := by
  refine ⟨h2.1.trans h1.1, fun hr => h2.2.1 (h1.2.1 hr), ?_, h1.2.2.2⟩
  intro q
  rw [h2.2.2.1 q]
  by_cases hq : q = w
  · simp [hq]
  · simp [hq, h1.2.2.1 q]

theorem Upd_get_self (fs fs1 : FS) (w : List Str) (new : Node) (h : Upd fs fs1 w new)
    (hn : new.isDir = false) : fs1.root.get w = some new := by
  rw [← kindAt_eq_some_iff _ _ _ hn, h.2.2.1 w]
  simp

theorem Upd_get_other (fs fs1 : FS) (w : List Str) (new : Node) (h : Upd fs fs1 w new)
    (q : List Str) (hq : q ≠ w) (n : Node) (hn : n.isDir = false) :
    fs1.root.get q = some n ↔ fs.root.get q = some n := by
  rw [← kindAt_eq_some_iff _ _ _ hn, ← kindAt_eq_some_iff _ _ _ hn, h.2.2.1 q]
  simp [hq]

theorem IsDir_iff (fs : FS) (p : Str) :
    IsDir fs p = true ↔ ∃ es, fs.root.get (resolve p) = some (.dir es) := by
  unfold IsDir osStat
  cases h : fs.root.get (resolve p) with
  | none => simp
  | some n => cases n <;> simp [Node.info]

theorem IsExist_iff (fs : FS) (p : Str) :
    IsExist fs p = true ↔ ∃ n, fs.root.get (resolve p) = some n ∧ n.isSymlink = false := by
  unfold IsExist osStat
  cases h : fs.root.get (resolve p) with
  | none => simp [Err.isExist]
  | some n => cases n <;> simp [Node.info, Err.isExist, Node.isSymlink]

theorem osSymlink_ok (fs fs1 : FS) (t p : Str) (h : osSymlink fs t p = (fs1, none)) :
    Upd fs fs1 (resolve p) (.symlink t) := by
  unfold osSymlink at h
  cases hg : fs.root.get (resolve p) with
  | some n => simp [hg] at h
  | none =>
    simp only [hg] at h
    exact put_Upd fs fs1 _ _ h (by simp [hg]) rfl rfl (resolve_good p)

theorem osCreate_ok (fs fs1 : FS) (p : Str) (dw : List Str)
    (h : osCreate fs p = (fs1, .ok dw)) :
    dw = resolve p ∧ ∃ md, Upd fs fs1 (resolve p) (.file [] fs.now md) := by
  unfold osCreate at h
  cases hg : fs.root.get (resolve p) with
  | none =>
    simp only [hg] at h
    cases hp : fs.put (resolve p) (.file [] fs.now 420) with
    | mk fsa e =>
      cases e with
      | some e => simp [hp] at h
      | none =>
        simp only [hp, Prod.mk.injEq, Except.ok.injEq] at h
        obtain ⟨rfl, rfl⟩ := h
        exact ⟨rfl, 420, put_Upd fs _ _ _ hp (by simp [hg]) rfl rfl (resolve_good p)⟩
  | some n =>
    cases n with
    | dir es => simp [hg] at h
    | symlink t => simp [hg] at h
    | file d mt md =>
      simp only [hg] at h
      cases hp : fs.put (resolve p) (.file [] fs.now md) with
      | mk fsa e =>
        cases e with
        | some e => simp [hp] at h
        | none =>
          simp only [hp, Prod.mk.injEq, Except.ok.injEq] at h
          obtain ⟨rfl, rfl⟩ := h
          refine ⟨rfl, md, put_Upd fs _ _ _ hp ?_ rfl rfl (resolve_good p)⟩
          intro m hm
          rw [hg] at hm
          cases hm
          rfl

/-- A successful `Copy` between two different places: the source is a file or
a link, and the destination now holds the same file (bytes, modification time,
mode) or the same link (target); nothing else has changed. -/
theorem Copy_ok (fs fs1 : FS) (src dest : Str) (h : Copy fs src dest = (fs1, none))
    (hne : resolve src ≠ resolve dest) :
    ∃ n, fs.root.get (resolve src) = some n ∧ n.isDir = false ∧
      Upd fs fs1 (resolve dest) n := by
  unfold Copy at h
  cases hg : fs.root.get (resolve src) with
  | none => simp [osLstat, hg] at h
  | some n =>
    cases n with
    | symlink t =>
      simp only [osLstat, hg, Node.info, if_true, osReadlink] at h
      exact ⟨_, rfl, rfl, osSymlink_ok fs fs1 t dest h⟩
    | dir es =>
      simp only [osLstat, hg, Node.info, osOpen] at h
      simp only [Bool.false_eq_true, if_false] at h
      cases hc : osCreate fs dest with
      | mk fsa r =>
        cases r with
        | error e => simp [hc] at h
        | ok dw =>
          simp only [hc] at h
          obtain ⟨rfl, md, hu⟩ := osCreate_ok fs fsa dest dw hc
          have hsrc : ∃ es1, fsa.root.get (resolve src) = some (.dir es1) := by
            rw [← kindAt_dir_iff, hu.2.2.1]
            simp only [hne, if_false]
            rw [kindAt_dir_iff]
            exact ⟨es, hg⟩
          obtain ⟨es1, hes1⟩ := hsrc
          simp [ioCopy, hes1] at h
    | file d mt md =>
      simp only [osLstat, hg, Node.info, osOpen] at h
      simp only [Bool.false_eq_true, if_false] at h
      cases hc : osCreate fs dest with
      | mk fsa r =>
        cases r with
        | error e => simp [hc] at h
        | ok dw =>
          simp only [hc] at h
          obtain ⟨rfl, md1, hu⟩ := osCreate_ok fs fsa dest dw hc
          have hsrc : fsa.root.get (resolve src) = some (.file d mt md) :=
            (Upd_get_other fs fsa _ _ hu _ hne (.file d mt md) rfl).2 hg
          have hdst : fsa.root.get (resolve dest) = some (.file [] fs.now md1) :=
            Upd_get_self fs fsa _ _ hu rfl
          simp only [ioCopy, hsrc, hdst] at h
          cases hp : fsa.put (resolve dest) (.file d fsa.now md1) with
          | mk fsb e =>
            cases e with
            | some e => simp [hp] at h
            | none =>
              simp only [hp] at h
              have hu2 : Upd fsa fsb (resolve dest) (.file d fsa.now md1) :=
                put_Upd fsa fsb _ _ hp (by simp [hdst, Node.isDir]) rfl rfl (resolve_good dest)
              have hdst2 := Upd_get_self fsa fsb _ _ hu2 rfl
              simp only [osChtimes, hdst2] at h
              cases hp3 : fsb.put (resolve dest) (.file d mt md1) with
              | mk fsc e =>
                cases e with
                | some e => simp [hp3] at h
                | none =>
                  simp only [hp3] at h
                  have hu3 : Upd fsb fsc (resolve dest) (.file d mt md1) :=
                    put_Upd fsb fsc _ _ hp3 (by simp [hdst2, Node.isDir]) rfl rfl
                      (resolve_good dest)
                  have hdst3 := Upd_get_self fsb fsc _ _ hu3 rfl
                  simp only [osChmod, hdst3] at h
                  have hu4 : Upd fsc fs1 (resolve dest) (.file d mt md) :=
                    put_Upd fsc fs1 _ _ h (by simp [hdst3, Node.isDir]) rfl rfl
                      (resolve_good dest)
                  exact ⟨_, rfl, rfl,
                    Upd_trans _ _ _ _ _ _ (Upd_trans _ _ _ _ _ _ (Upd_trans _ _ _ _ _ _ hu hu2) hu3) hu4⟩

theorem mkdirAllRev_ok (fs fs1 : FS) (l : List Str) (hl : ∀ c ∈ l, goodName c = true)
    (h : mkdirAllRev fs l = (fs1, none)) : MkUpd fs fs1 l.reverse := by
  induction l generalizing fs1 with
  | nil =>
    unfold mkdirAllRev at h
    cases hr : fs.root with
    | file _ _ _ => simp [hr] at h
    | symlink _ => simp [hr] at h
    | dir es =>
      simp only [hr, Prod.mk.injEq, and_true] at h
      subst h
      refine ⟨rfl, id, fun _ _ => rfl, ?_, ?_, ?_⟩
      · intro q hq
        simp only [List.reverse_nil, List.prefix_nil] at hq
        subst hq
        exact ⟨es, by rw [hr, get_nil]⟩
      · intro hn
        simp [get_nil] at hn
      · intro q hq n hn
        simp only [List.reverse_nil, List.prefix_nil] at hq
        subst hq
        rw [hr, get_nil] at hn
        cases hn
        rfl
  | cons c parent ih =>
    have hgoodp : ∀ x ∈ parent, goodName x = true := fun x hx => hl x (by simp [hx])
    have hgoodD : ∀ x ∈ parent.reverse ++ [c], goodName x = true := by
      intro x hx
      apply hl x
      rcases List.mem_append.1 hx with hx | hx
      · exact List.mem_cons_of_mem _ (List.mem_reverse.1 hx)
      · simp at hx; simp [hx]
    have hpre : parent.reverse <+: parent.reverse ++ [c] := List.prefix_append _ _
    have hnp : ¬ parent.reverse ++ [c] <+: parent.reverse := by
      intro hp
      have := hp.length_le
      simp at this
    rw [mkdirAllRev] at h
    simp only [List.reverse_cons] at h ⊢
    cases hg : fs.root.get (parent.reverse ++ [c]) with
    | some n =>
      cases n with
      | file _ _ _ => simp [hg] at h
      | dir es =>
        simp only [hg, Prod.mk.injEq, and_true] at h
        subst h
        have hanc : ∀ q, q <+: parent.reverse ++ [c] → ∃ es1, fs.root.get q = some (.dir es1) := by
          intro q hq
          obtain ⟨t, ht⟩ := hq
          rw [← ht] at hg
          cases t with
          | nil => exact ⟨es, by simpa using hg⟩
          | cons d t => exact get_proper_ancestor_isDir _ _ _ _ _ hg
        refine ⟨rfl, id, fun _ _ => rfl, hanc, ?_, ?_⟩
        · intro hn
          rw [hg] at hn
          cases hn
        · intro q hq n hn
          obtain ⟨es1, h1⟩ := hanc q hq
          rw [h1] at hn
          cases hn
          rfl
      | symlink t =>
        simp only [hg] at h
        cases hrec : mkdirAllRev fs parent with
        | mk fsa e =>
          cases e with
          | some e => simp [hrec] at h
          | none =>
            simp only [hrec] at h
            obtain ⟨_, _, hA, _, _, _⟩ := ih fsa hgoodp hrec
            have hga : fsa.root.get (parent.reverse ++ [c]) = some (.symlink t) := by
              rw [hA _ hnp, hg]
            simp [mkdirAt, hga] at h
    | none =>
      simp only [hg] at h
      cases hrec : mkdirAllRev fs parent with
      | mk fsa e =>
        cases e with
        | some e => simp [hrec] at h
        | none =>
          simp only [hrec] at h
          obtain ⟨hnow, hwf, hA, hB, _, hE⟩ := ih fsa hgoodp hrec
          have hga : fsa.root.get (parent.reverse ++ [c]) = none := by
            rw [hA _ hnp, hg]
          simp only [mkdirAt, hga] at h
          cases hp : fsa.put (parent.reverse ++ [c]) (.dir []) with
          | mk fsb e =>
            cases e with
            | some e =>
              have hfs : fsb = fsa := by
                unfold FS.put at hp
                cases hpp : fsa.root.putAt (parent.reverse ++ [c]) (.dir []) with
                | none => simp [hpp] at hp; exact hp.1.symm
                | some r => simp [hpp] at hp
              subst hfs
              simp [hp, hga] at h
            | none =>
              simp only [hp, Prod.mk.injEq, and_true] at h
              subst h
              obtain ⟨hput, hnow2⟩ := put_ok fsa fsb _ _ hp
              have hkind := kindAt_putAt _ _ _ _ hput (by simp [hga]) rfl
              have hnew := get_putAt_new _ _ _ _ hput hga rfl
              have hself : fsb.root.get (parent.reverse ++ [c]) = some (.dir []) := by
                have := get_putAt_extend _ _ _ _ [] hput
                simpa [get_nil] using this
              refine ⟨hnow2.trans hnow, fun hr => wf_putAt _ _ _ _ hput (hwf hr) rfl hgoodD,
                ?_, ?_, fun _ => hself, ?_⟩
              · intro q hq
                have hq1 : ¬ q <+: parent.reverse := fun e => hq (e.trans hpre)
                rw [hnew q hq, hA q hq1]
              · intro q hq
                by_cases hqe : q = parent.reverse ++ [c]
                · exact ⟨[], hqe ▸ hself⟩
                · have hq1 : q <+: parent.reverse := by
                    rcases List.prefix_concat_iff.1 hq with h1 | h1
                    · exact absurd h1 hqe
                    · exact h1
                  rw [← kindAt_dir_iff, hkind q]
                  simp only [hqe, if_false]
                  rw [kindAt_dir_iff]
                  exact hB q hq1
              · intro q hq n hn
                by_cases hqe : q = parent.reverse ++ [c]
                · rw [hqe, hg] at hn
                  cases hn
                · have hq1 : q <+: parent.reverse := by
                    rcases List.prefix_concat_iff.1 hq with h1 | h1
                    · exact absurd h1 hqe
                    · exact h1
                  exact hE q hq1 n hn

/-- A successful `os.MkdirAll`. -/
theorem osMkdirAll_ok (fs fs1 : FS) (p : Str) (h : osMkdirAll fs p = (fs1, none)) :
    MkUpd fs fs1 (resolve p) := by
  have := mkdirAllRev_ok fs fs1 (resolve p).reverse
    (fun c hc => resolve_good p c (List.mem_reverse.1 hc)) h
  simpa using this

theorem MkUpd_kindAt (fs fs1 : FS) (w : List Str) (h : MkUpd fs fs1 w) (q : List Str) :
    fs1.root.kindAt q = if q <+: w then some (.dir []) else fs.root.kindAt q := by
  obtain ⟨_, _, hA, hB, _, _⟩ := h
  by_cases hq : q <+: w
  · simp only [hq, if_true]
    exact (kindAt_dir_iff _ _).2 (hB q hq)
  · simp only [hq, if_false]
    unfold Node.kindAt
    rw [hA q hq]



/-! ## `statDir` computes the depth-first listing -/

theorem height_dir (es : List (Str × Node)) : (Node.dir es).height = heightE es + 1 := by
  rw [Node.height]

theorem heightE_cons (c : Str) (n : Node) (rest : List (Str × Node)) :
    heightE ((c, n) :: rest) = max n.height (heightE rest) := by
  rw [heightE]

theorem height_lookupE (es : List (Str × Node)) (c : Str) (ch : Node)
    (h : lookupE c es = some ch) : ch.height ≤ heightE es := by
  induction es with
  | nil => simp [lookupE] at h
  | cons e rest ih =>
    obtain ⟨k, w⟩ := e
    rw [heightE_cons]
    by_cases hk : k = c
    · simp [lookupE, hk] at h
      subst h
      exact le_max_left _ _
    · simp only [lookupE, hk, if_false] at h
      exact le_trans (ih h) (le_max_right _ _)

theorem height_get (r : Node) (q : List Str) (n : Node) (h : r.get q = some n) :
    n.height ≤ r.height := by
  induction q generalizing r with
  | nil => rw [get_nil] at h; cases h; exact le_refl _
  | cons c cs ih =>
    cases r with
    | file _ _ _ => simp [Node.get] at h
    | symlink _ => simp [Node.get] at h
    | dir es =>
      rw [get_dir_cons] at h
      cases hl : lookupE c es with
      | none => simp [hl] at h
      | some ch =>
        simp only [hl, Option.some_bind] at h
        rw [height_dir]
        exact le_trans (ih ch h) (le_trans (height_lookupE es c ch hl) (Nat.le_succ _))

theorem lookupE_of_mem_wf (es : List (Str × Node)) (hes : wfE es = true) :
    ∀ e ∈ es, lookupE e.1 es = some e.2 := by
  induction es with
  | nil => simp
  | cons e rest ih =>
    obtain ⟨k, w⟩ := e
    rw [wfE_cons] at hes
    obtain ⟨_, h2, _, h4⟩ := hes
    intro e he
    rcases List.mem_cons.1 he with rfl | he
    · simp [lookupE]
    · have := ih h4 e he
      have hk : k ≠ e.1 := by
        intro hk
        rw [← hk, h2] at this
        cases this
      simp [lookupE, hk, this]

theorem foldl_cleanStep_plain (xs : List Str) (h : ∀ x ∈ xs, Plain x) (acc : List Str) :
    xs.foldl (cleanStep false) acc = acc ++ xs := by
  induction xs generalizing acc with
  | nil => simp
  | cons x xs ih =>
    have hx := h x (by simp)
    rw [List.foldl_cons, ih (fun y hy => h y (by simp [hy]))]
    simp [cleanStep, hx.1, hx.2.1, hx.2.2]

theorem joinSlash_head (ws : List Str) (hne : ws ≠ []) (h : ∀ w ∈ ws, goodName w = true) :
    (joinSlash ws).head? ≠ some '/' ∧ joinSlash ws ≠ [] := by
  cases ws with
  | nil => exact absurd rfl hne
  | cons w rest =>
    have hw := (goodName_iff w).1 (h w (by simp))
    cases w with
    | nil => exact absurd rfl hw.1.1
    | cons a as =>
      have ha : a ≠ '/' := fun e => hw.2 (by simp [e])
      cases rest with
      | nil => simp [joinSlash, ha]
      | cons v vs => simp [joinSlash, ha]

/-- Cleaning leaves a relative path made of valid names as it is. -/
theorem pathClean_joinSlash (ws : List Str) (hne : ws ≠ [])
    (h : ∀ w ∈ ws, goodName w = true) : pathClean (joinSlash ws) = joinSlash ws := by
  obtain ⟨h1, h2⟩ := joinSlash_head ws hne h
  unfold pathClean
  simp only [h1, decide_False, if_false]
  rw [splitSlash_joinSlash ws hne (fun w hw => ((goodName_iff w).1 (h w hw)).2),
    foldl_cleanStep_plain ws (fun w hw => ((goodName_iff w).1 (h w hw)).1)]
  simp [h2]

/-- The relative path built by `statDir` for an entry. -/
theorem pathJoin_rel (pre : List Str) (c : Str) (hpre : ∀ w ∈ pre, goodName w = true)
    (hc : goodName c = true) : pathJoin (joinSlash pre) c = joinSlash (pre ++ [c]) := by
  have hcne : c ≠ [] := ((goodName_iff c).1 hc).1.1
  have hall : ∀ w ∈ pre ++ [c], goodName w = true := by
    intro w hw
    rcases List.mem_append.1 hw with hw | hw
    · exact hpre w hw
    · simp at hw; subst hw; exact hc
  unfold pathJoin
  by_cases hp : pre = []
  · subst hp
    simp only [joinSlash, if_true, hcne, if_false, List.nil_append]
    exact pathClean_joinSlash [c] (by simp) (by simpa using hc)
  · have hj := (joinSlash_head pre hp hpre).2
    simp only [hj, if_false]
    rw [← joinSlash_append_singleton pre hp c]
    exact pathClean_joinSlash _ (by simp) hall

/-- The node named by the path `statDir` builds for an entry. -/
theorem resolve_pathJoin_name (d c : Str) (hc : goodName c = true) :
    resolve (pathJoin d c) = resolve d ++ [c] := by
  have hg := (goodName_iff c).1 hc
  rw [resolve_pathJoin, splitSlash_of_no_slash c hg.2]
  simp [resolveStep_plain _ _ hg.1]

theorem listE_nil (a b : Bool) (pre : List Str) : listE a b pre [] = [] := by
  rw [listE]

theorem listE_cons (a b : Bool) (pre : List Str) (c : Str) (n : Node)
    (rest : List (Str × Node)) :
    listE a b pre ((c, n) :: rest) =
      (if strContains c dsStore then [] else listNode a b (pre ++ [c]) n)
        ++ listE a b pre rest := by
  rw [listE]

theorem listNode_dir (a b : Bool) (pre : List Str) (es : List (Str × Node)) :
    listNode a b pre (.dir es) = (if a then [relEntry pre true] else []) ++ listE a b pre es := by
  rw [listNode]

theorem listNode_leaf (a b : Bool) (pre : List Str) (n : Node) (hn : n.isDir = false) :
    listNode a b pre n = if b then [] else [relEntry pre false] := by
  cases n with
  | dir _ => simp [Node.isDir] at hn
  | file _ _ _ => rw [listNode]
  | symlink _ => rw [listNode]

theorem listE_append (a b : Bool) (pre : List Str) (es1 es2 : List (Str × Node)) :
    listE a b pre (es1 ++ es2) = listE a b pre es1 ++ listE a b pre es2 := by
  induction es1 with
  | nil => simp [listE_nil]
  | cons e rest ih =>
    obtain ⟨c, n⟩ := e
    simp only [List.cons_append, listE_cons, ih, List.append_assoc]

theorem statLoop_eq (fs : FS) (fuel : Nat) (dirPath : Str) (pre : List Str)
    (a b : Bool) (es : List (Str × Node))
    (hes : wfE es = true) (hpre : ∀ w ∈ pre, goodName w = true)
    (ih : ∀ (c : Str) (es1 : List (Str × Node)), lookupE c es = some (.dir es1) →
      statDir fs fuel (pathJoin dirPath c) (joinSlash (pre ++ [c])) a b
        = .ok (listE a b (pre ++ [c]) es1))
    (es2 : List (Str × Node)) (hsub : ∀ e ∈ es2, lookupE e.1 es = some e.2)
    (acc : List Str) :
    statLoop (fun curPath relPath => statDir fs fuel curPath relPath a b) dirPath
      (joinSlash pre) a b (es2.map (fun e => e.2.info e.1)) acc
      = .ok (acc ++ listE a b pre es2) := by
  induction es2 generalizing acc with
  | nil => simp [statLoop, listE_nil]
  | cons e rest ihl =>
    obtain ⟨c, n⟩ := e
    have hl : lookupE c es = some n := hsub (c, n) (by simp)
    have hc : goodName c = true := (wf_lookupE es c n hes hl).2
    have hrest := fun acc => ihl (fun e he => hsub e (by simp [he])) acc
    rw [List.map_cons, statLoop, listE_cons]
    have hname : (n.info c).name = c := by cases n <;> rfl
    have hisdir : (n.info c).isDir = n.isDir := by cases n <;> rfl
    simp only [hname, hisdir]
    by_cases hds : strContains c dsStore = true
    · simp only [hds, if_true, List.nil_append]
      exact hrest acc
    · simp only [hds, if_false, Bool.false_eq_true]
      rw [pathJoin_rel pre c hpre hc]
      cases n with
      | dir es1 =>
        simp only [Node.isDir, if_true]
        rw [ih c es1 hl]
        simp only
        rw [hrest, listNode_dir]
        cases a <;> simp [relEntry]
      | file d mt md =>
        simp only [Node.isDir, Bool.false_eq_true, if_false]
        rw [listNode_leaf a b _ (.file d mt md) rfl]
        cases b
        · simp only [Bool.not_false, if_true, Bool.false_eq_true, if_false]
          rw [hrest]
          simp [relEntry]
        · simp only [Bool.not_true, Bool.false_eq_true, if_false, if_true]
          rw [hrest]
          simp
      | symlink t =>
        simp only [Node.isDir, Bool.false_eq_true, if_false]
        rw [listNode_leaf a b _ (.symlink t) rfl]
        cases b
        · simp only [Bool.not_false, if_true, Bool.false_eq_true, if_false]
          rw [hrest]
          simp [relEntry]
        · simp only [Bool.not_true, Bool.false_eq_true, if_false, if_true]
          rw [hrest]
          simp

/-- With enough fuel `statDir` returns the depth-first listing of the directory
it is called on. -/
theorem statDir_eq (fs : FS) (hwf : fs.root.wf = true) (a b : Bool) (fuel : Nat) :
    ∀ (dirPath : Str) (pre : List Str) (es : List (Str × Node)),
      fs.root.get (resolve dirPath) = some (.dir es) → heightE es < fuel →
      (∀ w ∈ pre, goodName w = true) →
      statDir fs fuel dirPath (joinSlash pre) a b = .ok (listE a b pre es) := by
  induction fuel with
  | zero => intro _ _ _ _ h; exact absurd h (Nat.not_lt_zero _)
  | succ fuel ih =>
    intro dirPath pre es hget hh hpre
    have hes : wfE es = true := by
      have := (wf_get _ _ _ hwf hget).1
      rwa [wf_dir] at this
    rw [statDir]
    simp only [osReaddir, hget]
    have := statLoop_eq fs fuel dirPath pre a b es hes hpre ?_ es
      (lookupE_of_mem_wf es hes) []
    · simpa using this
    · intro c es1 hl
      have hc : goodName c = true := (wf_lookupE es c _ hes hl).2
      apply ih
      · rw [resolve_pathJoin_name dirPath c hc, get_append, hget]
        simp [get_dir_cons, hl, get_nil]
      · have := height_lookupE es c _ hl
        rw [height_dir] at this
        omega
      · intro w hw
        rcases List.mem_append.1 hw with hw | hw
        · exact hpre w hw
        · simp at hw; subst hw; exact hc

/-- On an existing directory of a well-formed file system, `StatDir` returns the
depth-first listing of the directory. -/
theorem StatDir_eq (fs : FS) (hwf : fs.root.wf = true) (rootPath : Str)
    (es : List (Str × Node)) (hget : fs.root.get (resolve rootPath) = some (.dir es))
    (includeDir : List Bool) :
    StatDir fs rootPath includeDir = .ok (listE (includeDir.head?.getD false) false [] es) := by
  have hdir : IsDir fs rootPath = true := (IsDir_iff fs rootPath).2 ⟨es, hget⟩
  have hh : heightE es < fs.root.height + 1 := by
    have := height_get _ _ _ hget
    rw [height_dir] at this
    omega
  unfold StatDir
  simp only [hdir, Bool.not_true, Bool.false_eq_true, if_false]
  have := statDir_eq fs hwf (includeDir.head?.getD false) false (fs.root.height + 1)
    rootPath [] es hget hh (by simp)
  simp only [joinSlash] at this
  cases includeDir with
  | nil => simpa using this
  | cons x xs => simpa using this

theorem StatDir_error (fs : FS) (rootPath : Str) (includeDir : List Bool)
    (h : IsDir fs rootPath = false) :
    StatDir fs rootPath includeDir = .error (.msg (notDirText ++ rootPath)) := by
  unfold StatDir
  simp [h]



/-! ## Entry strings -/

theorem joinSlash_append (xs ys : List Str) (hx : xs ≠ []) (hy : ys ≠ []) :
    joinSlash (xs ++ ys) = joinSlash xs ++ '/' :: joinSlash ys := by
  induction xs with
  | nil => exact absurd rfl hx
  | cons w rest ih =>
    cases rest with
    | nil =>
      cases ys with
      | nil => exact absurd rfl hy
      | cons y ys => simp [joinSlash]
    | cons v vs =>
      have := ih (by simp)
      simp only [List.cons_append] at this ⊢
      rw [joinSlash_cons_cons, joinSlash_cons_cons, this]
      simp

theorem good_no_slash (xs : List Str) (h : ∀ w ∈ xs, goodName w = true) :
    ∀ w ∈ xs, '/' ∉ w := fun w hw => ((goodName_iff w).1 (h w hw)).2

theorem good_ne_nil (xs : List Str) (h : ∀ w ∈ xs, goodName w = true) :
    ∀ w ∈ xs, w ≠ [] := fun w hw => ((goodName_iff w).1 (h w hw)).1.1

theorem splitSlash_relEntry (xs : List Str) (b : Bool) (hne : xs ≠ [])
    (h : ∀ w ∈ xs, goodName w = true) :
    splitSlash (relEntry xs b) = xs ++ (if b then [[]] else []) := by
  unfold relEntry
  cases b with
  | false => simpa using splitSlash_joinSlash xs hne (good_no_slash xs h)
  | true =>
    simp only [if_true]
    rw [show joinSlash xs ++ ['/'] = joinSlash xs ++ '/' :: [] from rfl,
      splitSlash_append_slash, splitSlash_joinSlash xs hne (good_no_slash xs h)]
    simp [splitSlash]

theorem filter_ne_nil_good (xs : List Str) (h : ∀ w ∈ xs, w ≠ []) :
    xs.filter (fun w => decide (w ≠ [])) = xs := by
  rw [List.filter_eq_self]
  intro w hw
  simpa using h w hw

/-- Different places have different entry strings. -/
theorem relEntry_inj (xs ys : List Str) (bx bY : Bool) (hx : xs ≠ []) (hy : ys ≠ [])
    (hgx : ∀ w ∈ xs, goodName w = true) (hgy : ∀ w ∈ ys, goodName w = true)
    (h : relEntry xs bx = relEntry ys bY) : xs = ys ∧ bx = bY := by
  have h1 := congrArg splitSlash h
  rw [splitSlash_relEntry xs bx hx hgx, splitSlash_relEntry ys bY hy hgy] at h1
  have h2 := congrArg (List.filter (fun w => decide (w ≠ []))) h1
  rw [List.filter_append, List.filter_append, filter_ne_nil_good xs (good_ne_nil xs hgx),
    filter_ne_nil_good ys (good_ne_nil ys hgy)] at h2
  have h3 : xs = ys := by
    cases bx <;> cases bY <;> simpa using h2
  subst h3
  refine ⟨rfl, ?_⟩
  have h4 := List.append_cancel_left h1
  cases bx <;> cases bY <;> simp at h4 <;> rfl

/-- An entry string tells whether the entry is a directory. -/
theorem hasSuffix_relEntry (xs : List Str) (b : Bool) (hx : xs ≠ [])
    (hgx : ∀ w ∈ xs, goodName w = true) : hasSuffix (relEntry xs b) ['/'] = b := by
  have hsp := splitSlash_relEntry xs b hx hgx
  cases b with
  | true =>
    unfold hasSuffix relEntry
    simp only [if_true]
    rw [List.isSuffixOf_iff_suffix]
    exact List.suffix_append _ _
  | false =>
    rw [Bool.eq_false_iff]
    intro hs
    unfold hasSuffix at hs
    rw [List.isSuffixOf_iff_suffix] at hs
    obtain ⟨t, ht⟩ := hs
    rw [← ht, show t ++ ['/'] = t ++ '/' :: [] from rfl, splitSlash_append_slash] at hsp
    simp only [splitSlash, Bool.false_eq_true, if_false, List.append_nil] at hsp
    have : ([] : Str) ∈ xs := by rw [← hsp]; simp
    exact good_ne_nil xs hgx [] this rfl

theorem relEntry_prefix_of (xs s : List Str) (b : Bool) (hx : xs ≠ []) (hs : s ≠ []) :
    relEntry xs true <+: relEntry (xs ++ s) b := by
  unfold relEntry
  rw [joinSlash_append xs s hx hs]
  simp only [if_true]
  refine ⟨joinSlash s ++ (if b then ['/'] else []), ?_⟩
  simp

/-- If the entry string of a directory is a prefix of an entry string, the
directory is at or above the place of the entry. -/
theorem prefix_of_relEntry_prefix (xs ys : List Str) (b : Bool) (hx : xs ≠ []) (hy : ys ≠ [])
    (hgx : ∀ w ∈ xs, goodName w = true) (hgy : ∀ w ∈ ys, goodName w = true)
    (h : relEntry xs true <+: relEntry ys b) : xs <+: ys := by
  obtain ⟨t, ht⟩ := h
  have h1 := congrArg splitSlash ht
  rw [splitSlash_relEntry ys b hy hgy] at h1
  unfold relEntry at h1
  simp only [if_true] at h1
  rw [show joinSlash xs ++ ['/'] ++ t = joinSlash xs ++ '/' :: t by simp,
    splitSlash_append_slash, splitSlash_joinSlash xs hx (good_no_slash xs hgx)] at h1
  have h2 := congrArg (List.filter (fun w => decide (w ≠ []))) h1
  rw [List.filter_append, List.filter_append, filter_ne_nil_good xs (good_ne_nil xs hgx),
    filter_ne_nil_good ys (good_ne_nil ys hgy)] at h2
  have h3 : List.filter (fun w : Str => decide (w ≠ []))
      (if b then ([[]] : List Str) else []) = [] := by
    cases b <;> simp
  rw [h3, List.append_nil] at h2
  exact ⟨_, h2⟩

/-! ## What the listing contains -/

theorem lookupE_split (es : List (Str × Node)) (c : Str) (ch : Node)
    (h : lookupE c es = some ch) : ∃ es1 es2, es = es1 ++ (c, ch) :: es2 := by
  induction es with
  | nil => simp [lookupE] at h
  | cons e rest ih =>
    obtain ⟨k, w⟩ := e
    by_cases hk : k = c
    · simp [lookupE, hk] at h
      subst h; subst hk
      exact ⟨[], rest, rfl⟩
    · simp only [lookupE, hk, if_false] at h
      obtain ⟨es1, es2, he⟩ := ih h
      exact ⟨(k, w) :: es1, es2, by simp [he]⟩

theorem mem_listNode_self (a b : Bool) (pre : List Str) (n : Node)
    (ha : n.isDir = true → a = true) (hb : n.isDir = false → b = false) :
    relEntry pre n.isDir ∈ listNode a b pre n := by
  cases n with
  | dir es =>
    rw [listNode_dir]
    have := ha rfl
    subst this
    simp [Node.isDir]
  | file d mt md =>
    rw [listNode_leaf a b pre (.file d mt md) rfl]
    have := hb rfl
    subst this
    simp [Node.isDir]
  | symlink t =>
    rw [listNode_leaf a b pre (.symlink t) rfl]
    have := hb rfl
    subst this
    simp [Node.isDir]

/-- Every node below the directory that is to be listed is in the listing. -/
theorem listE_complete (a b : Bool) (r : List Str) :
    ∀ (es : List (Str × Node)) (pre : List Str) (n : Node), r ≠ [] →
      (Node.dir es).get r = some n → (∀ c ∈ r, strContains c dsStore = false) →
      (n.isDir = true → a = true) → (n.isDir = false → b = false) →
      relEntry (pre ++ r) n.isDir ∈ listE a b pre es := by
  induction r with
  | nil => intro _ _ _ h; exact absurd rfl h
  | cons c r ih =>
    intro es pre n _ hget hds ha hb
    rw [get_dir_cons] at hget
    cases hl : lookupE c es with
    | none => simp [hl] at hget
    | some ch =>
      simp only [hl, Option.some_bind] at hget
      obtain ⟨es1, es2, he⟩ := lookupE_split es c ch hl
      have hc : strContains c dsStore = false := hds c (by simp)
      rw [he, listE_append, listE_cons]
      simp only [hc, Bool.false_eq_true, if_false]
      apply List.mem_append_right
      apply List.mem_append_left
      cases r with
      | nil =>
        rw [get_nil] at hget
        cases hget
        exact mem_listNode_self a b _ _ ha hb
      | cons d r =>
        cases ch with
        | file _ _ _ => simp [Node.get] at hget
        | symlink _ => simp [Node.get] at hget
        | dir es' =>
          rw [listNode_dir]
          apply List.mem_append_right
          have := ih es' (pre ++ [c]) n (by simp) hget (fun x hx => hds x (by simp [hx])) ha hb
          simpa using this

theorem Listed_cons_head (a b : Bool) (c : Str) (n : Node) (rest : List (Str × Node))
    (pre : List Str) (e : Str) (hc : strContains c dsStore = false)
    (h : e = relEntry (pre ++ [c]) n.isDir ∧ (n.isDir = true → a = true) ∧
      (n.isDir = false → b = false)) :
    Listed a b (.dir ((c, n) :: rest)) pre e := by
  refine ⟨[c], n, by simp, ?_, ?_, h.2.1, h.2.2, h.1⟩
  · simp [get_dir_cons, lookupE, get_nil]
  · intro x hx
    simp at hx; subst hx; exact hc

theorem Listed_cons_below (a b : Bool) (c : Str) (es1 rest : List (Str × Node))
    (pre : List Str) (e : Str) (hc : strContains c dsStore = false)
    (h : Listed a b (.dir es1) (pre ++ [c]) e) :
    Listed a b (.dir ((c, .dir es1) :: rest)) pre e := by
  obtain ⟨r, n, hr, hget, hds, ha, hb, he⟩ := h
  refine ⟨c :: r, n, by simp, ?_, ?_, ha, hb, by simpa using he⟩
  · simp [get_dir_cons, lookupE, hget]
  · intro x hx
    rcases List.mem_cons.1 hx with rfl | hx
    · exact hc
    · exact hds x hx

theorem Listed_cons_tail (a b : Bool) (c : Str) (n : Node) (rest : List (Str × Node))
    (pre : List Str) (e : Str) (hl : lookupE c rest = none)
    (h : Listed a b (.dir rest) pre e) : Listed a b (.dir ((c, n) :: rest)) pre e := by
  obtain ⟨r, m, hr, hget, hds, ha, hb, he⟩ := h
  refine ⟨r, m, hr, ?_, hds, ha, hb, he⟩
  cases r with
  | nil => exact absurd rfl hr
  | cons d r =>
    rw [get_dir_cons] at hget ⊢
    have hd : c ≠ d := by
      intro hcd
      subst hcd
      simp [hl] at hget
    simpa [lookupE, hd] using hget

/-- Every entry of the listing is the entry of a node below the directory. -/
theorem listE_sound (a b : Bool) (k : Nat) :
    ∀ (es : List (Str × Node)) (pre : List Str) (e : Str), heightE es < k →
      wfE es = true → e ∈ listE a b pre es → Listed a b (.dir es) pre e := by
  induction k with
  | zero => intro _ _ _ h; exact absurd h (Nat.not_lt_zero _)
  | succ k ih =>
    intro es
    induction es with
    | nil => intro pre e _ _ he; simp [listE_nil] at he
    | cons x rest ihl =>
      obtain ⟨c, n⟩ := x
      intro pre e hh hwf he
      rw [wfE_cons] at hwf
      obtain ⟨_, h2, h3, h4⟩ := hwf
      rw [heightE_cons] at hh
      rw [listE_cons] at he
      rcases List.mem_append.1 he with he | he
      · by_cases hc : strContains c dsStore = true
        · simp [hc] at he
        · have hc' : strContains c dsStore = false := by simpa using hc
          simp only [hc', Bool.false_eq_true, if_false] at he
          cases n with
          | dir es1 =>
            rw [listNode_dir] at he
            rcases List.mem_append.1 he with he | he
            · cases a with
              | false => simp at he
              | true =>
                simp at he
                exact Listed_cons_head true b c _ rest pre e hc' ⟨he, by simp, by simp [Node.isDir]⟩
            · have hh1 : heightE es1 < k := by
                rw [height_dir] at hh
                omega
              have hw1 : wfE es1 = true := by rwa [wf_dir] at h3
              exact Listed_cons_below a b c es1 rest pre e hc' (ih es1 (pre ++ [c]) e hh1 hw1 he)
          | file d mt md =>
            rw [listNode_leaf a b _ (.file d mt md) rfl] at he
            cases b with
            | true => simp at he
            | false =>
              simp at he
              exact Listed_cons_head a false c _ rest pre e hc' ⟨he, by simp [Node.isDir], by simp⟩
          | symlink t =>
            rw [listNode_leaf a b _ (.symlink t) rfl] at he
            cases b with
            | true => simp at he
            | false =>
              simp at he
              exact Listed_cons_head a false c _ rest pre e hc' ⟨he, by simp [Node.isDir], by simp⟩
      · have hh2 : heightE rest < k + 1 := lt_of_le_of_lt (le_max_right _ _) hh
        exact Listed_cons_tail a b c n rest pre e h2 (ihl pre e hh2 h4 he)

/-- The listing of a directory holds exactly the entries of the nodes below
it. -/
theorem mem_listE_iff (a b : Bool) (es : List (Str × Node)) (pre : List Str) (e : Str)
    (hwf : wfE es = true) : e ∈ listE a b pre es ↔ Listed a b (.dir es) pre e := by
  constructor
  · exact listE_sound a b (heightE es + 1) es pre e (Nat.lt_succ_self _) hwf
  · rintro ⟨r, n, hr, hget, hds, ha, hb, rfl⟩
    exact listE_complete a b r es pre n hr hget hds ha hb



/-! ## Order and multiplicity in the listing -/

theorem resolve_pathJoin_entry (p : Str) (r : List Str) (b : Bool) (hr : r ≠ [])
    (hg : ∀ c ∈ r, goodName c = true) :
    resolve (pathJoin p (relEntry r b)) = resolve p ++ r := by
  rw [resolve_pathJoin, splitSlash_relEntry r b hr hg, List.foldl_append,
    foldl_resolveStep_plain r (fun w hw => ((goodName_iff w).1 (hg w hw)).1)]
  cases b <;> simp [resolveStep]

theorem good_of_get_append (fs : FS) (hwf : fs.root.wf = true) (S r : List Str) (n : Node)
    (h : fs.root.get (S ++ r) = some n) : ∀ c ∈ r, goodName c = true := by
  intro c hc
  exact (wf_get _ _ _ hwf h).2 c (List.mem_append_right _ hc)

/-- One round of the loop of `CopyDir` on the entry of the node `n` at the
relative components `r`. -/
theorem copy_step (fs fs2 : FS) (src dest : Str) (r : List Str) (b : Bool) (hr : r ≠ [])
    (hg : ∀ c ∈ r, goodName c = true)
    (hne : resolve src ++ r ≠ resolve dest ++ r)
    (h : (if hasSuffix (relEntry r b) ['/'] then osMkdirAll fs (pathJoin dest (relEntry r b))
          else Copy fs (pathJoin src (relEntry r b)) (pathJoin dest (relEntry r b)))
        = (fs2, none)) :
    (b = true ∧ MkUpd fs fs2 (resolve dest ++ r)) ∨
    (b = false ∧ ∃ n, fs.root.get (resolve src ++ r) = some n ∧ n.isDir = false ∧
      Upd fs fs2 (resolve dest ++ r) n) := by
  rw [hasSuffix_relEntry r b hr hg] at h
  cases b with
  | true =>
    simp only [if_true] at h
    have := osMkdirAll_ok fs fs2 _ h
    rw [resolve_pathJoin_entry dest r true hr hg] at this
    exact Or.inl ⟨rfl, this⟩
  | false =>
    simp only [Bool.false_eq_true, if_false] at h
    have hs := resolve_pathJoin_entry src r false hr hg
    have hd := resolve_pathJoin_entry dest r false hr hg
    obtain ⟨n, h1, h2, h3⟩ := Copy_ok fs fs2 _ _ h (by rw [hs, hd]; exact hne)
    rw [hs] at h1
    rw [hd] at h3
    exact Or.inr ⟨rfl, n, h1, h2, h3⟩

theorem OldKept_Upd (fs1 fs fs2 : FS) (w : List Str) (new : Node) (hk : OldKept fs1 fs)
    (hu : Upd fs fs2 w new) (hw : fs1.root.get w = none) : OldKept fs1 fs2 := by
  intro q n hq hn
  have hqw : q ≠ w := by
    intro e
    rw [e, hw] at hq
    cases hq
  exact (Upd_get_other fs fs2 w new hu q hqw n hn).2 (hk q n hq hn)

theorem OldKept_MkUpd (fs1 fs fs2 : FS) (w : List Str) (hk : OldKept fs1 fs)
    (hm : MkUpd fs fs2 w) : OldKept fs1 fs2 := by
  intro q n hq hn
  have h1 := hk q n hq hn
  obtain ⟨_, _, hA, _, _, hE⟩ := hm
  by_cases hp : q <+: w
  · have := hE q hp n h1
    rw [hn] at this
    cases this
  · rw [hA q hp]
    exact h1

theorem DoneAt_Upd (fs1 fs fs2 : FS) (S D r : List Str) (b : Bool) (w : List Str) (new : Node)
    (hd : DoneAt fs1 fs S D r b) (hu : Upd fs fs2 w new) (hnew : new.isDir = false)
    (hsame : w = D ++ r → fs1.root.get (S ++ r) = some new) : DoneAt fs1 fs2 S D r b := by
  obtain ⟨n, h1, h2, h3⟩ := hd
  by_cases hw : D ++ r = w
  · have hb : b = false := by
      rw [← h2]
      exact hu.2.2.2 n (hw ▸ h1)
    subst hb
    refine ⟨new, ?_, hnew, fun _ => hsame hw.symm⟩
    rw [hw]
    exact Upd_get_self fs fs2 w new hu hnew
  · cases b with
    | false =>
      exact ⟨n, (Upd_get_other fs fs2 w new hu _ hw n h2).2 h1, h2, h3⟩
    | true =>
      have hk : fs2.root.kindAt (D ++ r) = some (.dir []) := by
        rw [hu.2.2.1]
        simp only [hw, if_false]
        rw [kindAt_dir_iff]
        cases n with
        | dir es => exact ⟨es, h1⟩
        | file _ _ _ => simp [Node.isDir] at h2
        | symlink _ => simp [Node.isDir] at h2
      obtain ⟨es, hes⟩ := (kindAt_dir_iff _ _).1 hk
      exact ⟨.dir es, hes, rfl, fun e => by cases e⟩

theorem DoneAt_MkUpd (fs1 fs fs2 : FS) (S D r : List Str) (b : Bool) (w : List Str)
    (hd : DoneAt fs1 fs S D r b) (hm : MkUpd fs fs2 w) : DoneAt fs1 fs2 S D r b := by
  obtain ⟨n, h1, h2, h3⟩ := hd
  obtain ⟨_, _, hA, hB, _, hE⟩ := hm
  by_cases hp : D ++ r <+: w
  · have hb : b = true := by
      rw [← h2]
      exact hE _ hp n h1
    subst hb
    obtain ⟨es, hes⟩ := hB _ hp
    exact ⟨.dir es, hes, rfl, fun e => by cases e⟩
  · exact ⟨n, by rw [hA _ hp]; exact h1, h2, h3⟩

theorem DirKept_refl (fs : FS) : DirKept fs fs := fun _ es h => ⟨es, h⟩

theorem DirKept_trans (a b c : FS) (h1 : DirKept a b) (h2 : DirKept b c) : DirKept a c := by
  intro q es h
  obtain ⟨es2, h3⟩ := h1 q es h
  exact h2 q es2 h3

theorem DirKept_Upd (fs fs2 : FS) (w : List Str) (new : Node) (hu : Upd fs fs2 w new) :
    DirKept fs fs2 := by
  intro q es h
  have hq : q ≠ w := by
    intro e
    have := hu.2.2.2 _ (e ▸ h)
    simp [Node.isDir] at this
  rw [← kindAt_dir_iff, hu.2.2.1 q]
  simp only [hq, if_false]
  exact (kindAt_dir_iff _ _).2 ⟨es, h⟩

theorem DirKept_MkUpd (fs fs2 : FS) (w : List Str) (hm : MkUpd fs fs2 w) : DirKept fs fs2 := by
  intro q es h
  by_cases hp : q <+: w
  · exact hm.2.2.2.1 q hp
  · exact ⟨es, by rw [hm.2.2.1 q hp]; exact h⟩

/-- What a run of the loop of `CopyDir` without error achieves on the entries
it is given: the old files are untouched, and every entry that is not excluded
has been copied. -/
theorem copyLoop_done (src dest : Str) (filter : Option (Str → Bool)) (fs1 : FS)
    (hwf1 : fs1.root.wf = true)
    (hF : ∀ r, r ≠ [] → fs1.root.get (resolve dest ++ r) = none) :
    ∀ (todo : List Str) (fs fs2 : FS), (∀ e ∈ todo, EntryOf fs1 (resolve src) e) →
      OldKept fs1 fs → fs.root.wf = true →
      copyLoop src dest filter fs todo = (fs2, none) →
      OldKept fs1 fs2 ∧ fs2.root.wf = true ∧ (fs2.now = fs.now ∧ DirKept fs fs2) ∧
      (∀ r b, DoneAt fs1 fs (resolve src) (resolve dest) r b →
        DoneAt fs1 fs2 (resolve src) (resolve dest) r b) ∧
      (∀ r n, r ≠ [] → fs1.root.get (resolve src ++ r) = some n →
        relEntry r n.isDir ∈ todo → excluded filter (relEntry r n.isDir) = false →
        DoneAt fs1 fs2 (resolve src) (resolve dest) r n.isDir) := by
  intro todo
  induction todo with
  | nil =>
    intro fs fs2 _ hk hwf h
    simp only [copyLoop, Prod.mk.injEq, and_true] at h
    subst h
    exact ⟨hk, hwf, ⟨rfl, DirKept_refl fs⟩, fun _ _ hd => hd, fun _ _ _ _ hm => by simp at hm⟩
  | cons info todo ih =>
    intro fs fs2 hent hk hwf h
    have hent2 : ∀ e ∈ todo, EntryOf fs1 (resolve src) e := fun e he => hent e (by simp [he])
    rw [copyLoop] at h
    by_cases hx : excluded filter info = true
    · simp only [hx, if_true] at h
      obtain ⟨h1, h2, h3, h4, h5⟩ := ih fs fs2 hent2 hk hwf h
      refine ⟨h1, h2, h3, h4, ?_⟩
      intro r n hr hget hm hex
      rcases List.mem_cons.1 hm with hm | hm
      · rw [hm, hx] at hex
        cases hex
      · exact h5 r n hr hget hm hex
    · simp only [hx, Bool.false_eq_true, if_false] at h
      obtain ⟨r0, n0, hr0, hget0, hinfo⟩ := hent info (by simp)
      have hg0 := good_of_get_append fs1 hwf1 _ r0 n0 hget0
      have hne : resolve src ++ r0 ≠ resolve dest ++ r0 := by
        intro e
        rw [e, hF r0 hr0] at hget0
        cases hget0
      subst hinfo
      cases hs : (if hasSuffix (relEntry r0 n0.isDir) ['/'] then
          osMkdirAll fs (pathJoin dest (relEntry r0 n0.isDir))
        else Copy fs (pathJoin src (relEntry r0 n0.isDir))
          (pathJoin dest (relEntry r0 n0.isDir))) with
      | mk fsm e =>
        rw [hs] at h
        cases e with
        | some e => simp at h
        | none =>
          simp only at h
          have hstep := copy_step fs fsm src dest r0 n0.isDir hr0 hg0 hne hs
          have hmid : OldKept fs1 fsm ∧ fsm.root.wf = true ∧ (fsm.now = fs.now ∧ DirKept fs fsm) ∧
              (∀ r b, DoneAt fs1 fs (resolve src) (resolve dest) r b →
                DoneAt fs1 fsm (resolve src) (resolve dest) r b) ∧
              DoneAt fs1 fsm (resolve src) (resolve dest) r0 n0.isDir := by
            rcases hstep with ⟨hb, hm⟩ | ⟨hb, n, hn1, hn2, hu⟩
            · refine ⟨OldKept_MkUpd fs1 fs fsm _ hk hm, hm.2.1 hwf, ⟨hm.1, DirKept_MkUpd _ _ _ hm⟩,
                fun r b hd => DoneAt_MkUpd fs1 fs fsm _ _ r b _ hd hm, ?_⟩
              obtain ⟨es, hes⟩ := hm.2.2.2.1 _ (List.prefix_refl _)
              exact ⟨.dir es, hes, hb.symm, fun e => by rw [hb] at e; cases e⟩
            · have hn0 : n = n0 := by
                have := hk _ n0 hget0 hb
                rw [hn1] at this
                exact Option.some.inj this
              subst hn0
              refine ⟨OldKept_Upd fs1 fs fsm _ n hk hu (hF r0 hr0), hu.2.1 hwf,
                ⟨hu.1, DirKept_Upd _ _ _ _ hu⟩, ?_, ?_⟩
              · intro r b hd
                refine DoneAt_Upd fs1 fs fsm _ _ r b _ n hd hu hn2 ?_
                intro e
                have := List.append_cancel_left e
                subst this
                exact hget0
              · exact ⟨n, Upd_get_self fs fsm _ n hu hn2, rfl, fun _ => hget0⟩
          obtain ⟨hk2, hwf2, hnow2, hmono2, hdone2⟩ := hmid
          obtain ⟨h1, h2, h3, h4, h5⟩ := ih fsm fs2 hent2 hk2 hwf2 h
          refine ⟨h1, h2, ⟨h3.1.trans hnow2.1, DirKept_trans _ _ _ hnow2.2 h3.2⟩,
            fun r b hd => h4 r b (hmono2 r b hd), ?_⟩
          intro r n hr hget hm hex
          rcases List.mem_cons.1 hm with hm | hm
          · have hg := good_of_get_append fs1 hwf1 _ r n hget
            obtain ⟨e1, e2⟩ := relEntry_inj r r0 _ _ hr hr0 hg hg0 hm
            subst e1
            rw [e2]
            exact h4 _ _ hdone2
          · exact h5 r n hr hget hm hex

theorem Sound_Upd (fs1 fs fs2 : FS) (D r : List Str) (new : Node) (allowed : Str → Prop)
    (hs : Sound fs1 fs D allowed) (hu : Upd fs fs2 (D ++ r) new) (hr : r ≠ [])
    (hal : allowed (relEntry r new.isDir)) :
    Sound fs1 fs2 D allowed := by
  intro q k hq
  rw [hu.2.2.1 q] at hq
  by_cases hw : q = D ++ r
  · simp only [hw, if_true, Option.some.injEq] at hq
    subst hq
    exact Or.inr ⟨r, hr, hw, hal⟩
  · simp only [hw, if_false] at hq
    exact hs q k hq

theorem Sound_MkUpd (fs1 fs fs2 : FS) (D r : List Str) (allowed : Str → Prop)
    (hs : Sound fs1 fs D allowed) (hm : MkUpd fs fs2 (D ++ r))
    (hD : ∀ q, q <+: D → fs1.root.kindAt q = some (.dir []))
    (hal : ∀ r1, r1 ≠ [] → r1 <+: r → allowed (relEntry r1 true)) :
    Sound fs1 fs2 D allowed := by
  intro q k hq
  rw [MkUpd_kindAt fs fs2 _ hm q] at hq
  by_cases hp : q <+: D ++ r
  · simp only [hp, if_true, Option.some.injEq] at hq
    subst hq
    rcases List.prefix_or_prefix_of_prefix hp (List.prefix_append D r) with h1 | h1
    · exact Or.inl (hD q h1)
    · obtain ⟨t, ht⟩ := h1
      subst ht
      by_cases htn : t = []
      · subst htn
        exact Or.inl (hD _ (by simp))
      · refine Or.inr ⟨t, htn, rfl, hal t htn ?_⟩
        exact (List.prefix_append_right_inj D).1 hp
  · simp only [hp, if_false] at hq
    exact hs q k hq

/-- What a run of the loop of `CopyDir` without error creates, when the entries
that are not excluded come with the directories above them: only nodes below
the destination, at the places of entries that are not excluded. -/
theorem copyLoop_sound (src dest : Str) (filter : Option (Str → Bool)) (fs1 : FS)
    (hwf1 : fs1.root.wf = true)
    (hF : ∀ r, r ≠ [] → fs1.root.get (resolve dest ++ r) = none)
    (hD : ∀ q, q <+: resolve dest → fs1.root.kindAt q = some (.dir []))
    (allowed : Str → Prop)
    (hanc : ∀ r r1, (∀ c ∈ r, goodName c = true) → r1 ≠ [] → r1 <+: r →
      allowed (relEntry r true) → allowed (relEntry r1 true)) :
    ∀ (todo : List Str) (fs fs2 : FS), (∀ e ∈ todo, EntryOf fs1 (resolve src) e) →
      (∀ e ∈ todo, excluded filter e = false → allowed e) →
      OldKept fs1 fs → Sound fs1 fs (resolve dest) allowed →
      copyLoop src dest filter fs todo = (fs2, none) →
      Sound fs1 fs2 (resolve dest) allowed := by
  intro todo
  induction todo with
  | nil =>
    intro fs fs2 _ _ _ hs h
    simp only [copyLoop, Prod.mk.injEq, and_true] at h
    subst h
    exact hs
  | cons info todo ih =>
    intro fs fs2 hent hal hk hs h
    have hent2 : ∀ e ∈ todo, EntryOf fs1 (resolve src) e := fun e he => hent e (by simp [he])
    have hal2 : ∀ e ∈ todo, excluded filter e = false → allowed e :=
      fun e he => hal e (by simp [he])
    rw [copyLoop] at h
    by_cases hx : excluded filter info = true
    · simp only [hx, if_true] at h
      exact ih fs fs2 hent2 hal2 hk hs h
    · simp only [hx, Bool.false_eq_true, if_false] at h
      have hallow := hal info (by simp) (by simpa using hx)
      obtain ⟨r0, n0, hr0, hget0, hinfo⟩ := hent info (by simp)
      have hg0 := good_of_get_append fs1 hwf1 _ r0 n0 hget0
      have hne : resolve src ++ r0 ≠ resolve dest ++ r0 := by
        intro e
        rw [e, hF r0 hr0] at hget0
        cases hget0
      subst hinfo
      cases hst : (if hasSuffix (relEntry r0 n0.isDir) ['/'] then
          osMkdirAll fs (pathJoin dest (relEntry r0 n0.isDir))
        else Copy fs (pathJoin src (relEntry r0 n0.isDir))
          (pathJoin dest (relEntry r0 n0.isDir))) with
      | mk fsm e =>
        rw [hst] at h
        cases e with
        | some e => simp at h
        | none =>
          simp only at h
          have hstep := copy_step fs fsm src dest r0 n0.isDir hr0 hg0 hne hst
          rcases hstep with ⟨hb, hm⟩ | ⟨hb, n, hn1, hn2, hu⟩
          · refine ih fsm fs2 hent2 hal2 (OldKept_MkUpd fs1 fs fsm _ hk hm) ?_ h
            refine Sound_MkUpd fs1 fs fsm _ r0 allowed hs hm hD ?_
            intro r1 hr1 hp
            rw [hb] at hallow
            exact hanc r0 r1 hg0 hr1 hp hallow
          · have hn0 : n = n0 := by
              have := hk _ n0 hget0 hb
              rw [hn1] at this
              exact Option.some.inj this
            subst hn0
            refine ih fsm fs2 hent2 hal2 (OldKept_Upd fs1 fs fsm _ n hk hu (hF r0 hr0)) ?_ h
            exact Sound_Upd fs1 fs fsm _ r0 n allowed hs hu hr0 hallow



/-! ## `CopyDir` as a whole -/

theorem hasPrefix_iff (s pre : Str) : hasPrefix s pre = true ↔ pre <+: s := by
  unfold hasPrefix
  exact List.isPrefixOf_iff_prefix

theorem hasPrefix_false_of_prefix (s t pre : Str) (hst : s <+: t)
    (h : hasPrefix t pre = false) : hasPrefix s pre = false := by
  rw [Bool.eq_false_iff] at h ⊢
  intro hs
  exact h ((hasPrefix_iff t pre).2 (((hasPrefix_iff s pre).1 hs).trans hst))

theorem get_below_empty (r : Node) (D : List Str) (h : r.get D = some (.dir []))
    (t : List Str) (ht : t ≠ []) : r.get (D ++ t) = none := by
  rw [get_append, h]
  cases t with
  | nil => exact absurd rfl ht
  | cons c t => simp [get_dir_nil_cons]

theorem StatDir_ok_isDir (fs : FS) (p : Str) (l : List Bool) (infos : List Str)
    (h : StatDir fs p l = .ok infos) : IsDir fs p = true := by
  by_contra hn
  have hn' : IsDir fs p = false := by simpa using hn
  rw [StatDir_error fs p l hn'] at h
  cases h

/-- The stages of a call of `CopyDir` that returns no error: the destination
did not exist and is created as an empty directory, the source is then a
directory whose listing is taken, and the loop runs over it without error. -/
theorem CopyDir_spec (fs fs2 : FS) (src dest : Str) (filters : List (Str → Bool))
    (hwf : fs.root.wf = true) (h : CopyDir fs src dest filters = (fs2, none)) :
    ∃ fs1 es, osMkdirAll fs dest = (fs1, none) ∧ MkUpd fs fs1 (resolve dest) ∧
      fs1.root.wf = true ∧ fs.root.get (resolve dest) = none ∧
      fs1.root.get (resolve dest) = some (.dir []) ∧
      fs1.root.get (resolve src) = some (.dir es) ∧
      StatDir fs1 src [true] = .ok (listE true false [] es) ∧
      copyLoop src dest filters.head? fs1 (listE true false [] es) = (fs2, none) := by
  unfold CopyDir at h
  by_cases hex : IsExist fs dest = true
  · simp [hex] at h
  · simp only [hex, Bool.false_eq_true, if_false] at h
    cases hmk : osMkdirAll fs dest with
    | mk fs1 e =>
      rw [hmk] at h
      cases e with
      | some e => simp at h
      | none =>
        simp only at h
        have hm := osMkdirAll_ok fs fs1 dest hmk
        have hwf1 := hm.2.1 hwf
        have hnone : fs.root.get (resolve dest) = none := by
          cases hg : fs.root.get (resolve dest) with
          | none => rfl
          | some n =>
            exfalso
            have hd := hm.2.2.2.2.2 _ (List.prefix_refl _) n hg
            apply hex
            rw [IsExist_iff]
            refine ⟨n, hg, ?_⟩
            cases n with
            | dir _ => rfl
            | file _ _ _ => rfl
            | symlink _ => simp [Node.isDir] at hd
        cases hst : StatDir fs1 src [true] with
        | error e => rw [hst] at h; simp at h
        | ok infos =>
          rw [hst] at h
          simp only at h
          obtain ⟨es, hes⟩ := (IsDir_iff fs1 src).1 (StatDir_ok_isDir fs1 src _ infos hst)
          have heq := StatDir_eq fs1 hwf1 src es hes [true]
          rw [hst] at heq
          simp only [List.head?_cons, Option.getD_some, Except.ok.injEq] at heq
          subst heq
          exact ⟨fs1, es, rfl, hm, hwf1, hnone, hm.2.2.2.2.1 hnone, hes, hst, h⟩

theorem entryOf_of_mem_listE (fs1 : FS) (hwf1 : fs1.root.wf = true) (S : List Str)
    (es : List (Str × Node)) (hes : fs1.root.get S = some (.dir es)) (e : Str)
    (he : e ∈ listE true false [] es) : EntryOf fs1 S e := by
  have hwe : wfE es = true := by
    have := (wf_get _ _ _ hwf1 hes).1
    rwa [wf_dir] at this
  rw [mem_listE_iff true false es [] e hwe] at he
  obtain ⟨r, n, hr, hget, _, _, _, he⟩ := he
  refine ⟨r, n, hr, ?_, by simpa using he⟩
  rw [get_append, hes]
  exact hget

/-- After a call of `CopyDir` that returns no error: the file system is still
well-formed, no directory has disappeared, the files and links that existed
when the listing was taken are unchanged, and every listed entry that the
filter does not exclude has been copied. -/
theorem CopyDir_done (fs fs2 : FS) (src dest : Str) (filters : List (Str → Bool))
    (hwf : fs.root.wf = true) (h : CopyDir fs src dest filters = (fs2, none)) :
    ∃ fs1, osMkdirAll fs dest = (fs1, none) ∧ MkUpd fs fs1 (resolve dest) ∧
      fs2.root.wf = true ∧ DirKept fs fs2 ∧ OldKept fs1 fs2 ∧
      fs2.now = fs.now ∧
      (∃ es, fs2.root.get (resolve dest) = some (.dir es)) ∧
      (∀ r n, r ≠ [] → fs1.root.get (resolve src ++ r) = some n →
        (∀ c ∈ r, strContains c dsStore = false) →
        excluded filters.head? (relEntry r n.isDir) = false →
        DoneAt fs1 fs2 (resolve src) (resolve dest) r n.isDir) := by
  obtain ⟨fs1, es, hmk, hm, hwf1, _, hD, hS, _, hloop⟩ := CopyDir_spec fs fs2 src dest filters hwf h
  have hF : ∀ r, r ≠ [] → fs1.root.get (resolve dest ++ r) = none :=
    fun r hr => get_below_empty _ _ hD r hr
  obtain ⟨h1, h2, h3, _, h5⟩ := copyLoop_done src dest filters.head? fs1 hwf1 hF
    (listE true false [] es) fs1 fs2
    (fun e he => entryOf_of_mem_listE fs1 hwf1 _ es hS e he) (fun _ _ hq _ => hq) hwf1 hloop
  refine ⟨fs1, hmk, hm, h2, DirKept_trans _ _ _ (DirKept_MkUpd _ _ _ hm) h3.2, h1,
    h3.1.trans hm.1, h3.2 _ _ hD, ?_⟩
  intro r n hr hget hds hex
  apply h5 r n hr hget _ hex
  have := listE_complete true false r es [] n hr
    (by rw [get_append, hS] at hget; exact hget) hds (fun _ => rfl) (fun _ => rfl)
  simpa using this

/-- After a call of `CopyDir` with a filter on a prefix of the relative path
that returns no error, every node below the destination is at the place of a
listed entry that the filter does not exclude. -/
theorem CopyDir_sound (fs fs2 : FS) (src dest P : Str) (hwf : fs.root.wf = true)
    (h : CopyDir fs src dest [fun path => hasPrefix path P] = (fs2, none)) :
    ∃ fs1 es, osMkdirAll fs dest = (fs1, none) ∧
      fs1.root.get (resolve src) = some (.dir es) ∧
      ∀ r n, r ≠ [] → fs2.root.get (resolve dest ++ r) = some n →
        relEntry r n.isDir ∈ listE true false [] es ∧ hasPrefix (relEntry r n.isDir) P = false := by
  obtain ⟨fs1, es, hmk, hm, hwf1, _, hD, hS, _, hloop⟩ :=
    CopyDir_spec fs fs2 src dest _ hwf h
  have hF : ∀ r, r ≠ [] → fs1.root.get (resolve dest ++ r) = none :=
    fun r hr => get_below_empty _ _ hD r hr
  have hwe : wfE es = true := by
    have := (wf_get _ _ _ hwf1 hS).1
    rwa [wf_dir] at this
  have hDD : ∀ q, q <+: resolve dest → fs1.root.kindAt q = some (.dir []) :=
    fun q hq => (kindAt_dir_iff _ _).2 (hm.2.2.2.1 q hq)
  have hs := copyLoop_sound src dest (some (fun path => hasPrefix path P)) fs1 hwf1 hF hDD
    (fun e => e ∈ listE true false [] es ∧ hasPrefix e P = false) ?_
    (listE true false [] es) fs1 fs2
    (fun e he => entryOf_of_mem_listE fs1 hwf1 _ es hS e he)
    (fun e he hx => ⟨he, by simpa [excluded] using hx⟩) (fun _ _ hq _ => hq)
    (fun q k hq => Or.inl hq) (by simpa using hloop)
  · refine ⟨fs1, es, hmk, hS, ?_⟩
    intro r n hr hget
    have hk : fs2.root.kindAt (resolve dest ++ r) = some n.shallow := by
      simp [Node.kindAt, hget]
    rcases hs _ _ hk with h1 | ⟨r1, _, h2, h3⟩
    · rw [Node.kindAt, hF r hr] at h1
      cases h1
    · have := List.append_cancel_left h2
      subst this
      have hsh : n.shallow.isDir = n.isDir := by cases n <;> rfl
      rw [hsh] at h3
      exact h3
  · intro r r1 hg hr1 hp hal
    obtain ⟨hmem, hpre⟩ := hal
    have hrne : r ≠ [] := by
      intro e
      subst e
      exact hr1 (List.prefix_nil.1 hp)
    rw [mem_listE_iff true false es [] _ hwe] at hmem
    obtain ⟨r2, n2, hr2, hget2, hds2, _, _, he2⟩ := hmem
    have hg2 := (wf_get (.dir es) r2 n2 (by rwa [wf_dir]) hget2).2
    simp only [List.nil_append] at he2
    obtain ⟨e1, e2⟩ := relEntry_inj r r2 _ _ hrne hr2 hg hg2 he2
    subst e1
    obtain ⟨t, ht⟩ := hp
    subst ht
    cases t with
    | nil =>
      simp only [List.append_nil] at hpre hget2 hds2 ⊢
      refine ⟨?_, hpre⟩
      have := listE_complete true false r1 es [] n2 hr1 hget2 hds2 (fun _ => rfl) (fun _ => rfl)
      rw [← e2] at this
      simpa using this
    | cons c t =>
      obtain ⟨es3, h3⟩ := get_proper_ancestor_isDir _ _ _ _ _ hget2
      constructor
      · have := listE_complete true false r1 es [] (.dir es3) hr1 h3
          (fun x hx => hds2 x (List.mem_append_left _ hx)) (fun _ => rfl) (fun _ => rfl)
        simpa [Node.isDir] using this
      · exact hasPrefix_false_of_prefix _ _ P (relEntry_prefix_of r1 (c :: t) true hr1 (by simp)) hpre

theorem ensureLoop_skip (env : Env) (fs : FS) (imp : Str) (imports : List Str)
    (h : skipped env imp = true) :
    ensureLoop env fs (imp :: imports) = ensureLoop env fs imports := by
  rw [ensureLoop]
  unfold skipped at h
  by_cases h1 : env.isGoRepoPath imp = true
  · simp [h1]
  · simp only [h1, Bool.false_or, decide_eq_true_eq] at h
    simp only [h1, Bool.false_eq_true, if_false, h, if_true]

theorem skipped_false (env : Env) (imp : Str) (h : skipped env imp = false) :
    env.isGoRepoPath imp = false ∧
      ¬ (imp = "C".toList ∨ hasPrefix imp "../".toList = true ∨ hasPrefix imp "./".toList = true) := by
  unfold skipped at h
  simp only [Bool.or_eq_false_iff, decide_eq_false_iff_not] at h
  exact h

theorem ensureLoop_present (env : Env) (fs : FS) (imp : Str) (imports : List Str)
    (h : skipped env imp = false) (hd : IsDir fs (vendorPath env imp) = true) :
    ensureLoop env fs (imp :: imports) =
      emit [.probe (vendorPath env imp)] (ensureLoop env fs imports) := by
  obtain ⟨h1, h2⟩ := skipped_false env imp h
  unfold vendorPath at hd
  rw [ensureLoop]
  simp only [h1, Bool.false_eq_true, if_false, h2, isDirExist, hd, vendorPath]

/-- When every import that is not passed over has its directory in the vendor
directory, the loop only checks that: it returns no error and leaves the file
system as it is. -/
theorem ensureLoop_idle (env : Env) (fs : FS) (imports : List Str)
    (h : ∀ imp ∈ imports, skipped env imp = false → IsDir fs (vendorPath env imp) = true) :
    ∃ evs, ensureLoop env fs imports = (fs, evs, none) ∧ ∀ ev ∈ evs, ev.isProbe = true := by
  induction imports with
  | nil => exact ⟨[], by rw [ensureLoop], by simp⟩
  | cons imp imports ih =>
    obtain ⟨evs, h1, h2⟩ := ih (fun i hi => h i (by simp [hi]))
    by_cases hs : skipped env imp = true
    · exact ⟨evs, by rw [ensureLoop_skip env fs imp imports hs, h1], h2⟩
    · have hs' : skipped env imp = false := by simpa using hs
      refine ⟨.probe (vendorPath env imp) :: evs, ?_, ?_⟩
      · rw [ensureLoop_present env fs imp imports hs' (h imp (by simp) hs'), h1]
        rfl
      · intro ev hev
        rcases List.mem_cons.1 hev with rfl | hev
        · rfl
        · exact h2 ev hev

theorem IsDir_of_DirKept (fs fs2 : FS) (h : DirKept fs fs2) (p : Str)
    (hd : IsDir fs p = true) : IsDir fs2 p = true := by
  rw [IsDir_iff] at hd ⊢
  obtain ⟨es, hes⟩ := hd
  exact h _ es hes

/-- A run of the loop that is not a dry run and returns no error: every import
that is not passed over has its directory in the vendor directory, provided the
fetch command, when the `get` flag allows it, keeps the file system well-formed
and removes no directory. -/
theorem ensureLoop_ok (env : Env) (hdry : env.dry = false)
    (hgwf : env.get = true → ∀ f imp, f.root.wf = true → (env.goGet f imp).1.root.wf = true)
    (hgdir : env.get = true → ∀ f imp, DirKept f (env.goGet f imp).1) :
    ∀ (imports : List Str) (fs fs2 : FS) (evs : List Event), fs.root.wf = true →
      ensureLoop env fs imports = (fs2, evs, none) →
      fs2.root.wf = true ∧ DirKept fs fs2 ∧
      ∀ imp ∈ imports, skipped env imp = false → IsDir fs2 (vendorPath env imp) = true := by
  intro imports
  induction imports with
  | nil =>
    intro fs fs2 evs hwf h
    rw [ensureLoop] at h
    simp only [Prod.mk.injEq] at h
    obtain ⟨rfl, _, _⟩ := h
    exact ⟨hwf, DirKept_refl _, by simp⟩
  | cons imp imports ih =>
    intro fs fs2 evs hwf h
    by_cases hs : skipped env imp = true
    · rw [ensureLoop_skip env fs imp imports hs] at h
      obtain ⟨h1, h2, h3⟩ := ih fs fs2 evs hwf h
      refine ⟨h1, h2, ?_⟩
      intro i hi hsi
      rcases List.mem_cons.1 hi with rfl | hi
      · rw [hs] at hsi; cases hsi
      · exact h3 i hi hsi
    · have hs' : skipped env imp = false := by simpa using hs
      by_cases hd : IsDir fs (vendorPath env imp) = true
      · rw [ensureLoop_present env fs imp imports hs' hd] at h
        cases hrest : ensureLoop env fs imports with
        | mk fsr rest =>
          obtain ⟨evr, er⟩ := rest
          rw [hrest] at h
          simp only [emit, Prod.mk.injEq] at h
          obtain ⟨rfl, _, rfl⟩ := h
          obtain ⟨h1, h2, h3⟩ := ih fs fsr evr hwf hrest
          refine ⟨h1, h2, ?_⟩
          intro i hi hsi
          rcases List.mem_cons.1 hi with rfl | hi
          · exact IsDir_of_DirKept fs fsr h2 _ hd
          · exact h3 i hi hsi
      · have hd' : IsDir fs (vendorPath env imp) = false := by simpa using hd
        obtain ⟨g1, g2⟩ := skipped_false env imp hs'
        have hd'' := hd'
        unfold vendorPath at hd''
        rw [ensureLoop] at h
        simp only [g1, Bool.false_eq_true, if_false, g2, isDirExist, hd'', hdry] at h
        -- the optional fetch
        have hfetch : ∀ (c : Bool), (if c = true then
              (match env.goGet fs (env.normalizeName imp) with
               | (fs1, err) => (fs1, [Event.fetch (env.normalizeName imp)], err))
            else (fs, [], none)) =
            (if c = true then
              ((env.goGet fs (env.normalizeName imp)).1, [Event.fetch (env.normalizeName imp)],
                (env.goGet fs (env.normalizeName imp)).2)
            else (fs, [], none)) := by
          intro c
          cases c <;> rfl
        rw [hfetch] at h
        have hcget : (!IsDir fs (pathJoin3 env.globalGoPath "src".toList
            (env.normalizeName imp)) && env.get) = true → env.get = true := by
          intro hb
          rw [Bool.and_eq_true] at hb
          exact hb.2
        generalize hc : (!IsDir fs (pathJoin3 env.globalGoPath "src".toList
          (env.normalizeName imp)) && env.get) = c at h hcget
        have hmid : ∃ fsg evg, (if c = true then
              ((env.goGet fs (env.normalizeName imp)).1, [Event.fetch (env.normalizeName imp)],
                (env.goGet fs (env.normalizeName imp)).2)
            else (fs, [], none)) = (fsg, evg, (if c = true then
                (env.goGet fs (env.normalizeName imp)).2 else none)) ∧
            fsg.root.wf = true ∧ DirKept fs fsg := by
          cases c with
          | true => exact ⟨_, _, rfl, hgwf (hcget rfl) fs _ hwf, hgdir (hcget rfl) fs _⟩
          | false => exact ⟨fs, [], rfl, hwf, DirKept_refl fs⟩
        obtain ⟨fsg, evg, hgeq, hwfg, hkg⟩ := hmid
        rw [hgeq] at h
        cases herr : (if c = true then (env.goGet fs (env.normalizeName imp)).2 else none) with
        | some e => rw [herr] at h; simp at h
        | none =>
          rw [herr] at h
          simp only at h
          cases hcp : CopyDir fsg (pathJoin3 env.globalGoPath "src".toList
              (env.normalizeName imp)) (pathJoin env.vendorDir (env.normalizeName imp))
              [gitFilter] with
          | mk fsc ec =>
            rw [hcp] at h
            cases ec with
            | some e => simp at h
            | none =>
              simp only at h
              obtain ⟨_, _, _, hwfc, hkc, _, _, hdest, _⟩ :=
                CopyDir_done fsg fsc _ _ _ hwfg hcp
              cases hrest : ensureLoop env fsc imports with
              | mk fsr rest =>
                obtain ⟨evr, er⟩ := rest
                rw [hrest] at h
                simp only [emit, Prod.mk.injEq] at h
                obtain ⟨rfl, _, rfl⟩ := h
                obtain ⟨h1, h2, h3⟩ := ih fsc fsr evr hwfc hrest
                refine ⟨h1, DirKept_trans _ _ _ hkg (DirKept_trans _ _ _ hkc h2), ?_⟩
                intro i hi hsi
                rcases List.mem_cons.1 hi with rfl | hi
                · apply IsDir_of_DirKept fsc fsr h2
                  rw [IsDir_iff]
                  exact hdest
                · exact h3 i hi hsi



/-! ## Properties of the prober and of the copier -/

/-- Claim C6. If `CopyDir(src, dest)` returns no error on a well-formed file
system and the source tree has a symbolic link with target `t` at the relative
path `r`, which is not skipped for a name containing `.DS_Store` and not
excluded by the filter, then `dest/r` is a symbolic link with target `t`;
nothing lies below it, and the link of the source is unchanged. -/
theorem copyDir_recreates_symlink (fs fs2 : FS) (src dest : Str)
    (filters : List (Str → Bool)) (r : List Str) (t : Str) (hwf : fs.root.wf = true)
    (h : CopyDir fs src dest filters = (fs2, none)) (hr : r ≠ [])
    (hlink : fs.root.get (resolve src ++ r) = some (.symlink t))
    (hds : ∀ c ∈ r, strContains c dsStore = false)
    (hex : excluded filters.head? (relEntry r false) = false) :
    fs2.root.get (resolve dest ++ r) = some (.symlink t) ∧
      (∀ s, s ≠ [] → fs2.root.get (resolve dest ++ r ++ s) = none) ∧
      fs2.root.get (resolve src ++ r) = some (.symlink t) := by
  obtain ⟨fs1, _, hm, _, _, hold, _, _, hdone⟩ := CopyDir_done fs fs2 src dest filters hwf h
  have hlink1 : fs1.root.get (resolve src ++ r) = some (.symlink t) := by
    by_cases hp : resolve src ++ r <+: resolve dest
    · have := hm.2.2.2.2.2 _ hp _ hlink
      simp [Node.isDir] at this
    · rw [hm.2.2.1 _ hp]; exact hlink
  obtain ⟨n, h1, _, h3⟩ := hdone r (.symlink t) hr hlink1 hds hex
  have hn := h3 rfl
  rw [hlink1] at hn
  cases hn
  refine ⟨h1, ?_, hold _ _ hlink1 rfl⟩
  intro s hs
  rw [get_append, h1]
  cases s with
  | nil => exact absurd rfl hs
  | cons c s => rfl

/-- The dangling link `gone` of `/pkg` is recreated in `/dest`. -/
theorem copyDir_recreates_symlink_witness :
    (exLinks.root.wf = true ∧
      CopyDir exLinks "/pkg".toList "/dest".toList []
        = ((CopyDir exLinks "/pkg".toList "/dest".toList []).1, none) ∧
      ["gone".toList] ≠ [] ∧
      exLinks.root.get (resolve "/pkg".toList ++ ["gone".toList])
        = some (.symlink "/nowhere".toList) ∧
      (∀ c ∈ ["gone".toList], strContains c dsStore = false) ∧
      excluded ([] : List (Str → Bool)).head? (relEntry ["gone".toList] false) = false) ∧
    (CopyDir exLinks "/pkg".toList "/dest".toList []).1.root.get
        (resolve "/dest".toList ++ ["gone".toList]) = some (.symlink "/nowhere".toList) ∧
      (∀ s, s ≠ [] → (CopyDir exLinks "/pkg".toList "/dest".toList []).1.root.get
        (resolve "/dest".toList ++ ["gone".toList] ++ s) = none) ∧
      (CopyDir exLinks "/pkg".toList "/dest".toList []).1.root.get
        (resolve "/pkg".toList ++ ["gone".toList]) = some (.symlink "/nowhere".toList) :=
  ⟨⟨by decide, by rfl, by decide, by rfl, by decide, by rfl⟩,
    copyDir_recreates_symlink exLinks _ "/pkg".toList "/dest".toList [] ["gone".toList]
      "/nowhere".toList (by decide) (by rfl) (by decide) (by rfl) (by decide) (by rfl)⟩



/-! ## Properties of the filter of `runEnsure`, of failed copies and of the loop -/

theorem prefix_relEntry_cons (c : Str) (r : List Str) (b : Bool) :
    c <+: relEntry (c :: r) b := by
  unfold relEntry
  cases r with
  | nil => simp [joinSlash]
  | cons d r =>
    rw [joinSlash_cons_cons]
    exact ⟨'/' :: joinSlash (d :: r) ++ (if b then ['/'] else []), by simp⟩

/-- Claim C5, counterexample. The source tree `pkg/{a.go, sub/.git/config}` is
copied by `CopyDir` with the filter of `runEnsure` without error, and the copy
has the file `sub/.git/config`, below a directory whose name begins with
`.git`. -/
theorem copyDir_copies_nested_git :
    (CopyDir exNested "/pkg".toList "/dest".toList [gitFilter]).2 = none ∧
    (CopyDir exNested "/pkg".toList "/dest".toList [gitFilter]).1.root.get
      ["dest".toList, "sub".toList, ".git".toList, "config".toList] = some exFile ∧
    hasPrefix ".git".toList ".git".toList = true :=
  ⟨by rfl, by rfl, by rfl⟩

/-- Claim C5, amended. After a copy by `CopyDir` with the filter of `runEnsure`
that returns no error, no path below the destination has a first component
whose name begins with `.git`; every listed entry whose relative path does not
begin with `.git` is copied, whatever the names of its later components. -/
theorem copyDir_no_toplevel_git (fs fs2 : FS) (src dest : Str) (hwf : fs.root.wf = true)
    (h : CopyDir fs src dest [gitFilter] = (fs2, none)) :
    (∀ c r n, fs2.root.get (resolve dest ++ c :: r) = some n →
      hasPrefix c ".git".toList = false) ∧
    (∀ r n, r ≠ [] → (osMkdirAll fs dest).1.root.get (resolve src ++ r) = some n →
      (∀ c ∈ r, strContains c dsStore = false) →
      hasPrefix (relEntry r n.isDir) ".git".toList = false →
      ∃ n2, fs2.root.get (resolve dest ++ r) = some n2 ∧ n2.isDir = n.isDir) := by
  obtain ⟨_, _, _, _, hsound⟩ := CopyDir_sound fs fs2 src dest ".git".toList hwf h
  obtain ⟨fs1, hmk, _, _, _, _, _, _, hdone⟩ := CopyDir_done fs fs2 src dest _ hwf h
  constructor
  · intro c r n hget
    exact hasPrefix_false_of_prefix _ _ _ (prefix_relEntry_cons c r n.isDir)
      (hsound (c :: r) n (by simp) hget).2
  · intro r n hr hget hds hp
    rw [hmk] at hget
    obtain ⟨n2, h1, h2, _⟩ := hdone r n hr hget hds (by simpa [excluded, gitFilter] using hp)
    exact ⟨n2, h1, h2⟩

/-- The scenario of the specification, with the filter of `runEnsure`. -/
theorem copyDir_no_toplevel_git_witness :
    (exPkg.root.wf = true ∧
      CopyDir exPkg "/pkg".toList "/dest".toList [gitFilter] = (exPkgCopied, none)) ∧
    (∀ c r n, exPkgCopied.root.get (resolve "/dest".toList ++ c :: r) = some n →
      hasPrefix c ".git".toList = false) ∧
    (∀ r n, r ≠ [] →
      (osMkdirAll exPkg "/dest".toList).1.root.get (resolve "/pkg".toList ++ r) = some n →
      (∀ c ∈ r, strContains c dsStore = false) →
      hasPrefix (relEntry r n.isDir) ".git".toList = false →
      ∃ n2, exPkgCopied.root.get (resolve "/dest".toList ++ r) = some n2 ∧
        n2.isDir = n.isDir) :=
  ⟨⟨by decide, by rfl⟩,
    copyDir_no_toplevel_git exPkg exPkgCopied "/pkg".toList "/dest".toList (by decide) (by rfl)⟩

/-- Claim C4, counterexample. The import `.x` begins with `"."`, and the loop
of `runEnsure` does not pass over it: it checks its destination and its source
and copies it, and `.x` is in the vendor directory afterwards. -/
theorem ensure_vendors_dot_import :
    hasPrefix ".x".toList ".".toList = true ∧
    (ensureLoop (exEnv false) exWork [".x".toList]).2.1 =
      [.probe "/proj/src/vendor/.x".toList, .print ".x".toList,
        .probe "/gopath/src/.x".toList,
        .copy "/gopath/src/.x".toList "/proj/src/vendor/.x".toList] ∧
    (ensureLoop (exEnv false) exWork [".x".toList]).2.2 = none ∧
    IsDir (ensureLoop (exEnv false) exWork [".x".toList]).1 "/proj/src/vendor/.x".toList
      = true :=
  ⟨by rfl, by rfl, by rfl, by rfl⟩

/-- Claim C4, amended. An import that is a standard package (`IsGoRepoPath`), is
`"C"`, or begins with `"../"` or `"./"` is passed over by the loop of
`runEnsure`: the loop behaves as if the import were not in the list, with the
same final file system, the same actions (no existence check, no fetch, no copy
for it) and the same result. -/
theorem ensure_skips_nonvendorable (env : Env) (fs : FS) (imp : Str) (imports : List Str)
    (h : env.isGoRepoPath imp = true ∨ imp = "C".toList ∨
      hasPrefix imp "../".toList = true ∨ hasPrefix imp "./".toList = true) :
    ensureLoop env fs (imp :: imports) = ensureLoop env fs imports := by
  apply ensureLoop_skip
  unfold skipped
  rcases h with h | h
  · rw [h, Bool.true_or]
  · rw [decide_eq_true h, Bool.or_true]

/-- The relative import `./rel` in front of the import `x`. -/
theorem ensure_skips_nonvendorable_witness :
    ((exEnv false).isGoRepoPath "./rel".toList = true ∨ "./rel".toList = "C".toList ∨
      hasPrefix "./rel".toList "../".toList = true ∨
      hasPrefix "./rel".toList "./".toList = true) ∧
    ensureLoop (exEnv false) exWork ("./rel".toList :: ["x".toList])
      = ensureLoop (exEnv false) exWork ["x".toList] :=
  ⟨Or.inr (Or.inr (Or.inr (by rfl))),
    ensure_skips_nonvendorable (exEnv false) exWork "./rel".toList ["x".toList]
      (Or.inr (Or.inr (Or.inr (by rfl))))⟩

/-- Claim C8. When every import that is not passed over already has its
directory in the vendor directory, the loop of `runEnsure` returns no error,
leaves the file system as it is and only performs existence checks (no fetch,
no copy), whatever the global cache holds. Hence the loop run again on the file
system `fs` left by a run that was not a dry run and returned no error (from a
well-formed file system, with a fetch command that, when the `get` flag is
set, keeps it well-formed and removes no directory) leaves `fs` unchanged. -/
theorem ensure_idempotent (env : Env) (fs : FS) (imports : List Str) :
    ((∀ imp ∈ imports, skipped env imp = false →
        IsDir fs (pathJoin env.vendorDir (env.normalizeName imp)) = true) →
      ∃ evs, ensureLoop env fs imports = (fs, evs, none) ∧ ∀ ev ∈ evs, ev.isProbe = true) ∧
    (∀ (fs0 : FS) (evs0 : List Event), env.dry = false → fs0.root.wf = true →
      (env.get = true → ∀ f imp, f.root.wf = true → (env.goGet f imp).1.root.wf = true) →
      (env.get = true → ∀ f imp, DirKept f (env.goGet f imp).1) →
      ensureLoop env fs0 imports = (fs, evs0, none) →
      ∃ evs, ensureLoop env fs imports = (fs, evs, none) ∧ ∀ ev ∈ evs, ev.isProbe = true) := by
  constructor
  · intro h
    exact ensureLoop_idle env fs imports h
  · intro fs0 evs0 hdry hwf hgwf hgdir h
    exact ensureLoop_idle env fs imports
      (ensureLoop_ok env hdry hgwf hgdir imports fs0 fs evs0 hwf h).2.2

/-- A second run after the run over the imports `x`, `fmt` and `./rel`. -/
theorem ensure_idempotent_witness :
    ((exEnv false).dry = false ∧ exWork.root.wf = true ∧
      ((exEnv false).get = true →
        ∀ f imp, f.root.wf = true → ((exEnv false).goGet f imp).1.root.wf = true) ∧
      ((exEnv false).get = true → ∀ f imp, DirKept f ((exEnv false).goGet f imp).1) ∧
      ensureLoop (exEnv false) exWork ["x".toList, "fmt".toList, "./rel".toList]
        = ((ensureLoop (exEnv false) exWork ["x".toList, "fmt".toList, "./rel".toList]).1,
            (ensureLoop (exEnv false) exWork ["x".toList, "fmt".toList, "./rel".toList]).2.1,
            none)) ∧
    ∃ evs, ensureLoop (exEnv false)
        (ensureLoop (exEnv false) exWork ["x".toList, "fmt".toList, "./rel".toList]).1
        ["x".toList, "fmt".toList, "./rel".toList]
      = ((ensureLoop (exEnv false) exWork ["x".toList, "fmt".toList, "./rel".toList]).1,
          evs, none) ∧ ∀ ev ∈ evs, ev.isProbe = true :=
  ⟨⟨by rfl, by decide, fun _ _ _ hf => hf, fun _ f _ => DirKept_refl f, by rfl⟩,
    (ensure_idempotent (exEnv false) _ ["x".toList, "fmt".toList, "./rel".toList]).2
      exWork _ (by rfl) (by decide) (fun _ _ _ hf => hf) (fun _ f _ => DirKept_refl f) (by rfl)⟩


end Gop
